import Mathlib

/-!
Shallow embedding of the CAGECleaner status-reconciliation core
(`src/cagecleaner/cagecleaner.py`): the dereplication status table built by
`parse_dereplication_clusters`, the recovery engine `recover_hits`, and the
final selector `get_dereplicated_scaffolds`.

Modelling conventions:
* scaffold and assembly identifiers are strings; cblaster scores are exact
  rationals; the per-query-gene homolog counts are integers;
* the status table is a scaffold-keyed association list in dataframe row
  order; `pandas.loc`/`.at` become `lookupRow`/`setStatus`;
* the nondeterminism of `random.choice` is modelled by an index oracle
  `r : List String → Nat`: `choiceM r l` is the element of `l` at index
  `r l % l.length`, and `none` on an empty list (where Python's
  `random.choice` raises `IndexError`);
* `scipy.stats.zscore` (its default `ddof = 0`) yields NaN for every entry
  exactly when the population variance of the scores is zero, and a finite
  value otherwise; the branch test `zscores.isna().all()` is therefore
  embedded as `varPop scores = 0`, and the threshold test
  `zscores.abs() >= outlier_z` as its exact square form over ℚ.
-/

set_option allowUnsafeReducibility true

attribute [local semireducible] Rat.add Rat.sub Rat.mul Rat.inv

namespace Cagecleaner

/-- Lexicographic comparison of character lists by code point, the order
Python uses when pandas sorts a string column. -/
def lexLe : List Char → List Char → Bool
  | [], _ => true
  | _ :: _, [] => false
  | a :: as, b :: bs => if a < b then true else if b < a then false else lexLe as bs

/-- String comparison used for every `sort_values` on string columns. -/
def strLe (a b : String) : Bool := lexLe a.data b.data

/-- `strLe` as a relation. -/
def strLeP (a b : String) : Prop := strLe a b = true

instance : DecidableRel strLeP := fun a b => instDecidableEqBool (strLe a b) true

/-- The four dereplication statuses written by the tool; the constructor
names are the status strings used in the code. -/
inductive Status where
  | dereplication_representative
  | redundant
  | readded_by_cluster_content
  | readded_by_outlier_score
deriving DecidableEq

/-- The string stored in the `dereplication_status` column. -/
def statusStr : Status → String
  | Status.dereplication_representative => "dereplication_representative"
  | Status.redundant => "redundant"
  | Status.readded_by_cluster_content => "readded_by_cluster_content"
  | Status.readded_by_outlier_score => "readded_by_outlier_score"

/-- One row of the dereplication status table: the representative assembly
accession and the dereplication status.  Rows are keyed by scaffold ID. -/
structure Row where
  representative : String
  dereplication_status : Status
deriving DecidableEq

/-- The status table: scaffold-keyed rows in dataframe row order. -/
abbrev Table := List (String × Row)

/-- Per-hit data parsed from the cblaster binary table with the columns
`Organism`, `Start`, `End` dropped: the homolog-count vector of the
query-gene columns, and the `Score` column. -/
structure HitData where
  content : List Int
  score : ℚ
deriving DecidableEq

/-- Row lookup by scaffold ID (pandas `.loc[s]` on the unique index). -/
def lookupRow : Table → String → Option Row
  | [], _ => none
  | p :: ps, s => if p.1 = s then some p.2 else lookupRow ps s

/-- `genome_clusters_mapping.loc[s, 'dereplication_status']`. -/
def lookupStatus (t : Table) (s : String) : Option Status :=
  (lookupRow t s).map (fun row => row.dereplication_status)

/-- `updated_mapping.at[s, 'dereplication_status'] = st`. -/
def setStatus (t : Table) (s : String) (st : Status) : Table :=
  t.map (fun p =>
    if p.1 = s then (p.1, { p.2 with dereplication_status := st }) else p)

/-- The scaffold index of the table. -/
def keysOf (t : Table) : List String := t.map Prod.fst

/-- Arithmetic mean of a score list. -/
def mean (l : List ℚ) : ℚ := l.sum / l.length

/-- Population variance (denominator `n`): scipy's `zscore` default
`ddof = 0` standardises by the population standard deviation, so that
`z(x)^2 = (x - mean)^2 / varPop`. -/
def varPop (l : List ℚ) : ℚ := (l.map (fun x => (x - mean l) ^ 2)).sum / l.length

/-- Number of occurrences of a value in a score list. -/
def countOcc (l : List ℚ) (q : ℚ) : ℕ := (l.filter (fun x => decide (x = q))).length

/-- Strict preference between mode candidates: strictly more occurrences,
or equally many occurrences and a smaller value. -/
def Better (l : List ℚ) (y b : ℚ) : Prop :=
  countOcc l b < countOcc l y ∨ (countOcc l y = countOcc l b ∧ y < b)

instance (l : List ℚ) (y b : ℚ) : Decidable (Better l y b) := by
  unfold Better; infer_instance

/-- One comparison step of the mode computation. -/
def modeStep (l : List ℚ) (best y : ℚ) : ℚ := if Better l y best then y else best

/-- `float(scores.mode().iloc[0])`: a most frequent value; pandas returns
the modes sorted ascending, so ties go to the smallest value. -/
def modeScore : List ℚ → ℚ
  | [] => 0
  | x :: xs => (x :: xs).foldl (modeStep (x :: xs)) x

/-- `zscores.abs() >= outlier_z` for `z = (x - mean)/stdev` with `ddof = 0`,
written in its exact square form over ℚ: a nonpositive threshold is always
met (`|z| ≥ 0`), and for a positive threshold and positive variance
`|z| ≥ z0` iff `(x - mean)^2 ≥ z0^2 * varPop`. -/
def zAbsGe (l : List ℚ) (x z0 : ℚ) : Bool :=
  decide (z0 ≤ 0) || decide (z0 ^ 2 * varPop l ≤ (x - mean l) ^ 2)

/-- The outlier mask of `recover_hits`:
`(zscores.abs() >= outlier_z) & ((scores - mode).abs() >= min_score_diff)`. -/
def isOutlier (l : List ℚ) (x mode z0 msd : ℚ) : Bool :=
  zAbsGe l x z0 && decide (msd ≤ |x - mode|)

/-- The scores of a content group in group order
(`hits_this_group.loc[content_group, 'Score']`). -/
def scoresOf (hits : String → HitData) (cg : List String) : List ℚ :=
  cg.map (fun s => (hits s).score)

/-- `outliers_this_content_group`: the members passing the outlier mask. -/
def outliersOf (hits : String → HitData) (z0 msd : ℚ) (cg : List String) : List String :=
  cg.filter (fun s =>
    isOutlier (scoresOf hits cg) (hits s).score (modeScore (scoresOf hits cg)) z0 msd)

/-- `non_outliers_this_content_group`: the group with the outliers dropped. -/
def nonOutliersOf (hits : String → HitData) (z0 msd : ℚ) (cg : List String) : List String :=
  cg.filter (fun s =>
    !isOutlier (scoresOf hits cg) (hits s).score (modeScore (scoresOf hits cg)) z0 msd)

/-- `"dereplication_representative" in [base statuses of the members]`. -/
def hasRep (base : Table) (l : List String) : Bool :=
  l.any (fun m => decide (lookupStatus base m = some Status.dereplication_representative))

/-- The distinct representative accessions in sorted order: the group keys
of `groupby('representative')`. -/
def repsOf (t : Table) : List String :=
  List.insertionSort strLeP ((t.map (fun p => p.2.representative)).dedup)

/-- The scaffolds of one dereplication cluster in table row order. -/
def membersOfRep (t : Table) (rep : String) : List String :=
  (t.filter (fun p => decide (p.2.representative = rep))).map Prod.fst

/-- The distinct homolog-count vectors occurring in one dereplication
cluster.  The code enumerates the content groups in the order of the pandas
groupby keys, which depends on Python set iteration over the column names;
the enumeration order does not affect the result (theorem `C7` below makes
this precise), so first-appearance order is used here. -/
def contentsOf (hits : String → HitData) (g : List String) : List (List Int) :=
  (g.map (fun s => (hits s).content)).dedup

/-- The members of one cluster sharing one homolog-count vector. -/
def contentGroup (hits : String → HitData) (g : List String) (c : List Int) : List String :=
  g.filter (fun s => decide ((hits s).content = c))

/-- `hits_this_group_by_content_group`. -/
def contentGroupsOf (hits : String → HitData) (g : List String) : List (List String) :=
  (contentsOf hits g).map (contentGroup hits g)

/-- All content groups of all dereplication clusters: the loop domain of
`recover_hits`. -/
def allContentGroups (hits : String → HitData) (t : Table) : List (List String) :=
  (repsOf t).flatMap (fun rep => contentGroupsOf hits (membersOfRep t rep))

/-- `random.choice(seq)` modelled by an index oracle: the element of the
sequence at the drawn index, `none` on an empty sequence (Python raises
`IndexError` there). -/
def choiceM (r : List String → Nat) (l : List String) : Option String :=
  l.get? (r l % l.length)

/-- Modelled from the spec (§9): the deterministic smallest-ID member
selection prescribed as the replacement for the source's `random.choice`. -/
def detChoice : List String → Option String
  | [] => none
  | x :: xs => some (xs.foldl (fun a b => if strLe b a then b else a) x)

/-- Row order produced by
`sort_values(by = ['representative', 'dereplication_status'])`:
sort by representative accession, then by the status string. -/
def rowLe (p q : String × Row) : Bool :=
  if p.2.representative = q.2.representative then
    strLe (statusStr p.2.dereplication_status) (statusStr q.2.dereplication_status)
  else strLe p.2.representative q.2.representative

/-- `rowLe` as a relation. -/
def rowLeP (p q : String × Row) : Prop := rowLe p q = true

instance : DecidableRel rowLeP := fun p q => instDecidableEqBool (rowLe p q) true

/-- `sort_values(by = ['representative', 'dereplication_status'])`.  The
pandas default sort is not stable, so the order of tied rows is an
implementation detail; a stable insertion sort instantiates it here. -/
def sortTable (t : Table) : Table := List.insertionSort rowLeP t

/-- The loop `for outlier in outliers_this_content_group` of `recover_hits`:
every outlier whose base status is not the dereplication representative is
flagged `readded_by_outlier_score` in the evolving copy. -/
def applyOutliers (base : Table) (hits : String → HitData) (outlier_z min_score_diff : ℚ)
    (content_group : List String) (t : Table) : Table :=
  (outliersOf hits outlier_z min_score_diff content_group).foldl
    (fun acc o =>
      if lookupStatus base o = some Status.dereplication_representative then acc
      else setStatus acc o Status.readded_by_outlier_score) t

/-- The body of the content-group loop of `recover_hits`: statuses are read
from the immutable base table (`genome_clusters_mapping`) and written into
the evolving copy `t` (`updated_mapping`); the result is `none` when
`random.choice` is handed an empty sequence. -/
def processContentGroup (base : Table) (hits : String → HitData) (not_by_score : Bool)
    (outlier_z min_score_diff : ℚ) (choose : List String → Option String)
    (t : Table) (content_group : List String) : Option Table :=
  if not_by_score || decide (varPop (scoresOf hits content_group) = 0) then
    if hasRep base content_group then some t
    else (choose content_group).map
      (fun m => setStatus t m Status.readded_by_cluster_content)
  else
    if hasRep base (nonOutliersOf hits outlier_z min_score_diff content_group) then
      some (applyOutliers base hits outlier_z min_score_diff content_group t)
    else (choose (nonOutliersOf hits outlier_z min_score_diff content_group)).map
      (fun m =>
        setStatus (applyOutliers base hits outlier_z min_score_diff content_group t) m
          Status.readded_by_cluster_content)

/-- The two nested loops of `recover_hits`, as a fold over an explicit list
of content groups. -/
def process_groups (base : Table) (hits : String → HitData) (not_by_score : Bool)
    (outlier_z min_score_diff : ℚ) (choose : List String → Option String)
    (t : Table) (groups : List (List String)) : Option Table :=
  groups.foldlM (processContentGroup base hits not_by_score outlier_z min_score_diff choose) t

/-- `recover_hits`, parameterised by the member-selection function standing
for `random.choice`. -/
def recover_hits_core (choose : List String → Option String) (hits : String → HitData)
    (genome_clusters_mapping : Table) (not_by_content not_by_score : Bool)
    (outlier_z min_score_diff : ℚ) : Option Table :=
  if not_by_content then some (sortTable genome_clusters_mapping)
  else
    (process_groups genome_clusters_mapping hits not_by_score outlier_z min_score_diff choose
        genome_clusters_mapping (allContentGroups hits genome_clusters_mapping)).map sortTable

/-- `recover_hits` with the source's random member choice, driven by the
index oracle `r`. -/
def recover_hits (hits : String → HitData) (genome_clusters_mapping : Table)
    (r : List String → Nat) (not_by_content not_by_score : Bool)
    (outlier_z min_score_diff : ℚ) : Option Table :=
  recover_hits_core (choiceM r) hits genome_clusters_mapping not_by_content not_by_score
    outlier_z min_score_diff

/-- Modelled from the spec (§9): `recover_hits` with the deterministic
smallest-ID member selection in place of the source's `random.choice`. -/
def recover_hits_det (hits : String → HitData) (genome_clusters_mapping : Table)
    (not_by_content not_by_score : Bool) (outlier_z min_score_diff : ℚ) : Option Table :=
  recover_hits_core detChoice hits genome_clusters_mapping not_by_content not_by_score
    outlier_z min_score_diff

/-- `get_dereplicated_scaffolds`:
`genome_clusters[genome_clusters['dereplication_status'] != 'redundant'].index.to_list()`. -/
def get_dereplicated_scaffolds (genome_clusters : Table) : List String :=
  (genome_clusters.filter
    (fun p => !decide (p.2.dereplication_status = Status.redundant))).map Prod.fst

/-- The failures of `parse_dereplication_clusters`: an assembly accession
that cannot be extracted from a path (`IndexError` on `findall(...)[0]`),
or an unknown raw status (`KeyError` in `remap_type_label`). -/
inductive ParseError where
  | accession (path : String)
  | statusKey (raw : String)
deriving DecidableEq

def isDigit09 (c : Char) : Bool := decide ('0' ≤ c) && decide (c ≤ '9')

def isDigit19 (c : Char) : Bool := decide ('1' ≤ c) && decide (c ≤ '9')

/-- One attempted match of the accession regex `GC[A|F]_[0-9]{9}\.[1-9]+`
at the head of the character list (the class `[A|F]` matches `A`, `|` or
`F` literally, and the version part admits only the digits 1 to 9). -/
def matchAccAt : List Char → Option String
  | 'G' :: 'C' :: c :: '_' :: rest =>
    if (c = 'A' ∨ c = '|' ∨ c = 'F') ∧ (rest.take 9).length = 9 ∧ (rest.take 9).all isDigit09 then
      match rest.drop 9 with
      | '.' :: rest2 =>
        if (rest2.takeWhile isDigit19).isEmpty then none
        else some (String.mk
          ('G' :: 'C' :: c :: '_' :: (rest.take 9 ++ '.' :: rest2.takeWhile isDigit19)))
      | _ => none
    else none
  | _ => none

/-- `pattern.findall(path)[0]`: the leftmost match of the accession regex,
`none` when there is no match anywhere in the string. -/
def findAcc : List Char → Option String
  | [] => none
  | c :: cs =>
    match matchAccAt (c :: cs) with
    | some m => some m
    | none => findAcc cs

/-- `extract_assembly`: extract the accession from a file path; a path
without a match raises (modelled as a `ParseError`). -/
def extract_assembly (path : String) : Except ParseError String :=
  match findAcc path.data with
  | some a => Except.ok a
  | none => Except.error (ParseError.accession path)

/-- `remap_type_label`: the raw-label dictionary; an unknown label raises
`KeyError`. -/
def remap_type_label (raw : String) : Except ParseError Status :=
  if raw = "representative_to_self" then Except.ok Status.dereplication_representative
  else if raw = "within_cutoffs_requested" then Except.ok Status.redundant
  else Except.error (ParseError.statusKey raw)

/-- One row of skDER's `skDER_Clustering.txt` as read by `read_table`
(columns 0, 1 and 4). -/
structure ClusterRecord where
  assembly_path : String
  representative_path : String
  raw_status : String
deriving DecidableEq

/-- `map_scaffolds`:
`[s for s, a in scaffold_assembly_pairs.items() if a == assembly]`. -/
def map_scaffolds (assembly : String) (pairs : List (String × String)) : List String :=
  (pairs.filter (fun p => decide (p.2 = assembly))).map Prod.fst

/-- Assignment into a Python dict: an existing key keeps its position and
receives the new value, a new key is appended. -/
def dictInsert (m : List (String × Row)) (k : String) (v : Row) : List (String × Row) :=
  if (m.map Prod.fst).contains k then m.map (fun p => if p.1 = k then (k, v) else p)
  else m ++ [(k, v)]

/-- `parse_dereplication_clusters`: run the converters over every record
(the first failing cell aborts the parse), sort the assembly-level table by
(representative, status), turn it into an assembly-keyed dict, expand each
assembly to the scaffolds carrying a cblaster hit, and sort the resulting
scaffold-level table.  The cluster-size report written to disk is I/O and
is not modelled. -/
def parse_dereplication_clusters (records : List ClusterRecord)
    (scaffold_assembly_pairs : List (String × String)) : Except ParseError Table := do
  let converted ← records.mapM (fun record => do
    let assembly ← extract_assembly record.assembly_path
    let representative ← extract_assembly record.representative_path
    let st ← remap_type_label record.raw_status
    pure (assembly, Row.mk representative st))
  let sortedRecords := List.insertionSort rowLeP converted
  let genome_clusters_records := sortedRecords.foldl (fun m p => dictInsert m p.1 p.2) []
  let genome_clusters := genome_clusters_records.flatMap (fun p =>
    (map_scaffolds p.1 scaffold_assembly_pairs).map (fun s => (s, p.2)))
  pure (sortTable genome_clusters)

/-- Steps 6 and 7 of `main`: build the base status table from the skDER
clustering, then run the recovery engine on it; a parse failure aborts
before recovery runs. -/
def recovery_pipeline (records : List ClusterRecord)
    (scaffold_assembly_pairs : List (String × String)) (hits : String → HitData)
    (r : List String → Nat) (not_by_content not_by_score : Bool)
    (outlier_z min_score_diff : ℚ) : Except ParseError (Option Table) :=
  match parse_dereplication_clusters records scaffold_assembly_pairs with
  | Except.error e => Except.error e
  | Except.ok t =>
    Except.ok (recover_hits hits t r not_by_content not_by_score outlier_z min_score_diff)

/-- Verification view of one loop body: the status that processing one
content group assigns to a member (`none` when the member's row is not
written). -/
def groupDecision (base : Table) (hits : String → HitData) (not_by_score : Bool)
    (outlier_z min_score_diff : ℚ) (choose : List String → Option String)
    (cg : List String) (s : String) : Option Status :=
  if not_by_score || decide (varPop (scoresOf hits cg) = 0) then
    if hasRep base cg then none
    else if choose cg = some s then some Status.readded_by_cluster_content else none
  else
    if isOutlier (scoresOf hits cg) (hits s).score (modeScore (scoresOf hits cg))
        outlier_z min_score_diff then
      if lookupStatus base s = some Status.dereplication_representative then none
      else some Status.readded_by_outlier_score
    else
      if hasRep base (nonOutliersOf hits outlier_z min_score_diff cg) then none
      else if choose (nonOutliersOf hits outlier_z min_score_diff cg) = some s then
        some Status.readded_by_cluster_content
      else none

/-- Apply a write decision to a looked-up row. -/
def applyDecision (row? : Option Row) : Option Status → Option Row
  | none => row?
  | some st => row?.map (fun row => { row with dereplication_status := st })

/-- The unique content group a scaffold of the table belongs to. -/
def ownGroup (hits : String → HitData) (t : Table) (s : String) : List String :=
  match lookupRow t s with
  | none => []
  | some row => contentGroup hits (membersOfRep t row.representative) (hits s).content

/-! ### Derived z-score forms and builder-table predicate -/

/-- The square of the code's z-score: population variance (`ddof = 0`) in
the denominator. -/
def zsqPop (l : List ℚ) (x : ℚ) : ℚ := (x - mean l) ^ 2 / varPop l

/-- Modelled from the spec: the sample variance (denominator `n − 1`) that
§4.3 prescribes for the z-score; the code's scipy default divides by `n`. -/
def varSamp (l : List ℚ) : ℚ :=
  (l.map (fun y => (y - mean l) ^ 2)).sum / ((l.length : ℚ) - 1)

/-- Modelled from the spec: the square of the spec's z-score, standardised
by the sample standard deviation. -/
def zsqSample (l : List ℚ) (x : ℚ) : ℚ := (x - mean l) ^ 2 / varSamp l

/-- A base table as the cluster-table builder produces it: every hit starts
as the dereplication representative or as redundant. -/
def builderStatuses (t : Table) : Prop :=
  ∀ p ∈ t, p.2.dereplication_status = Status.dereplication_representative ∨
    p.2.dereplication_status = Status.redundant

/-! ### Concrete example data -/

/-- Scenario C hit data: four hits with identical content and scores
`[5, 5, 5, 9]` (scaffold `"d"` scores 9). -/
def hitsScenarioC : String → HitData := fun s =>
  if s = "d" then ⟨[2, 1], 9⟩ else ⟨[2, 1], 5⟩

/-- Scenario C base table: one cluster whose four hits are all redundant
(no representative hit present in the group). -/
def tableScenarioC : Table :=
  [("a", ⟨"R", Status.redundant⟩), ("b", ⟨"R", Status.redundant⟩),
   ("c", ⟨"R", Status.redundant⟩), ("d", ⟨"R", Status.redundant⟩)]

/-- Five hits with identical content and scores `[5, 5, 5, 5, 9]`; the
score outlier `"e"` belongs to the representative assembly. -/
def hitsRepOutlier : String → HitData := fun s =>
  if s = "e" then ⟨[1], 9⟩ else ⟨[1], 5⟩

/-- One cluster of five hits whose score outlier `"e"` is the
dereplication representative. -/
def tableRepOutlier : Table :=
  [("a", ⟨"R", Status.redundant⟩), ("b", ⟨"R", Status.redundant⟩),
   ("c", ⟨"R", Status.redundant⟩), ("d", ⟨"R", Status.redundant⟩),
   ("e", ⟨"R", Status.dereplication_representative⟩)]

/-- Two hits with identical content and scores `[5, 9]`, both redundant. -/
def hitsPair : String → HitData := fun s =>
  if s = "b" then ⟨[1], 9⟩ else ⟨[1], 5⟩

/-- A one-cluster base table for the two-hit example. -/
def tablePair : Table :=
  [("a", ⟨"R", Status.redundant⟩), ("b", ⟨"R", Status.redundant⟩)]

/-- The sorted output of the deterministic engine on the Scenario C input:
the smallest-ID member `"a"` is readded by cluster content. -/
def tableScenarioC1 : Table :=
  [("a", ⟨"R", Status.readded_by_cluster_content⟩), ("b", ⟨"R", Status.redundant⟩),
   ("c", ⟨"R", Status.redundant⟩), ("d", ⟨"R", Status.redundant⟩)]

/-! ### Order lemmas for the sort relations -/

theorem lexLe_total (x y : List Char) : lexLe x y = true ∨ lexLe y x = true := by
  induction x generalizing y with
  | nil => left; rfl
  | cons a as ih =>
    cases y with
    | nil => right; rfl
    | cons b bs =>
      rcases lt_trichotomy a b with h | h | h
      · left; simp [lexLe, h]
      · subst h
        rcases ih bs with h2 | h2
        · left; simp [lexLe, lt_irrefl, h2]
        · right; simp [lexLe, lt_irrefl, h2]
      · right; simp [lexLe, h]

theorem lexLe_trans : ∀ {x y z : List Char},
    lexLe x y = true → lexLe y z = true → lexLe x z = true
  | [], _, _, _, _ => rfl
  | _ :: _, [], _, hxy, _ => by simp [lexLe] at hxy
  | _ :: _, _ :: _, [], _, hyz => by simp [lexLe] at hyz
  | a :: as, b :: bs, c :: cs, hxy, hyz => by
    rcases lt_trichotomy a b with hab | hab | hab
    · rcases lt_trichotomy b c with hbc | hbc | hbc
      · simp [lexLe, lt_trans hab hbc]
      · subst hbc; simp [lexLe, hab]
      · simp [lexLe, hbc, asymm hbc] at hyz
    · subst hab
      rcases lt_trichotomy a c with hac | hac | hac
      · simp [lexLe, hac]
      · subst hac
        simp only [lexLe, lt_irrefl, if_false] at hxy hyz ⊢
        exact lexLe_trans hxy hyz
      · simp [lexLe, hac, asymm hac] at hyz
    · simp [lexLe, hab, asymm hab] at hxy

theorem lexLe_antisymm : ∀ {x y : List Char}, lexLe x y = true → lexLe y x = true → x = y
  | [], [], _, _ => rfl
  | [], _ :: _, _, hyx => by simp [lexLe] at hyx
  | _ :: _, [], hxy, _ => by simp [lexLe] at hxy
  | a :: as, b :: bs, hxy, hyx => by
    rcases lt_trichotomy a b with hab | hab | hab
    · simp [lexLe, hab, asymm hab] at hyx
    · subst hab
      simp only [lexLe, lt_irrefl, if_false] at hxy hyx
      rw [lexLe_antisymm hxy hyx]
    · simp [lexLe, hab, asymm hab] at hxy

theorem strLe_total (a b : String) : strLe a b = true ∨ strLe b a = true :=
  lexLe_total a.data b.data

theorem strLe_trans {a b c : String} (h1 : strLe a b = true) (h2 : strLe b c = true) :
    strLe a c = true :=
  lexLe_trans h1 h2

theorem strLe_antisymm {a b : String} (h1 : strLe a b = true) (h2 : strLe b a = true) :
    a = b :=
  String.ext (lexLe_antisymm h1 h2)

theorem strLe_refl (a : String) : strLe a a = true := by
  rcases strLe_total a a with h | h <;> exact h

instance : IsTotal String strLeP := ⟨strLe_total⟩

instance : IsTrans String strLeP := ⟨fun _ _ _ => strLe_trans⟩

instance : IsAntisymm String strLeP := ⟨fun _ _ => strLe_antisymm⟩

theorem rowLe_total (p q : String × Row) : rowLe p q = true ∨ rowLe q p = true := by
  unfold rowLe
  by_cases h : p.2.representative = q.2.representative
  · simp [h, strLe_total]
  · have h2 : ¬ q.2.representative = p.2.representative := fun hq => h hq.symm
    simp [h, h2, strLe_total]

theorem rowLe_trans {p q v : String × Row} (h1 : rowLe p q = true) (h2 : rowLe q v = true) :
    rowLe p v = true := by
  unfold rowLe at h1 h2 ⊢
  by_cases hpq : p.2.representative = q.2.representative
  · rw [if_pos hpq] at h1
    by_cases hqv : q.2.representative = v.2.representative
    · rw [if_pos hqv] at h2
      rw [if_pos (hpq.trans hqv)]
      exact strLe_trans h1 h2
    · rw [if_neg hqv] at h2
      have hpv : ¬ p.2.representative = v.2.representative := by
        rw [hpq]; exact hqv
      rw [if_neg hpv, hpq]
      exact h2
  · rw [if_neg hpq] at h1
    by_cases hqv : q.2.representative = v.2.representative
    · rw [if_pos hqv] at h2
      have hpv : ¬ p.2.representative = v.2.representative := by
        rw [← hqv]; exact hpq
      rw [if_neg hpv, ← hqv]
      exact h1
    · rw [if_neg hqv] at h2
      have hpv : ¬ p.2.representative = v.2.representative := by
        intro hpv
        exact hpq (strLe_antisymm h1 (by rw [hpv]; exact h2))
      rw [if_neg hpv]
      exact strLe_trans h1 h2

instance : IsTotal (String × Row) rowLeP := ⟨rowLe_total⟩

instance : IsTrans (String × Row) rowLeP := ⟨fun _ _ _ => rowLe_trans⟩

/-! ### Table lookup and update lemmas -/

theorem applyDecision_none (x : Option Row) : applyDecision x none = x := rfl

theorem applyDecision_none_left (d : Option Status) : applyDecision none d = none := by
  cases d <;> rfl

theorem applyDecision_idem (x : Option Row) (d : Option Status) :
    applyDecision (applyDecision x d) d = applyDecision x d := by
  cases d with
  | none => rfl
  | some st =>
    cases x with
    | none => rfl
    | some row => rfl

theorem lookupRow_setStatus (t : Table) (a : String) (st : Status) (s : String) :
    lookupRow (setStatus t a st) s =
      if a = s then applyDecision (lookupRow t s) (some st) else lookupRow t s := by
  induction t with
  | nil =>
    simp only [setStatus, List.map_nil, lookupRow, applyDecision_none_left, ite_self]
  | cons p ps ih =>
    simp only [setStatus] at ih
    simp only [setStatus, List.map_cons]
    by_cases hpa : p.1 = a <;> by_cases hps : p.1 = s
    · have has : a = s := hpa.symm.trans hps
      simp [lookupRow, hpa, hps, has, applyDecision]
    · have has : ¬ a = s := fun h => hps (hpa.trans h)
      simp [lookupRow, hpa, hps, has, ih]
    · have has : ¬ a = s := fun h => hpa (hps.trans h.symm)
      have has2 : ¬ s = a := fun h => has h.symm
      simp [lookupRow, hpa, hps, has, has2]
    · simp [lookupRow, hpa, hps, ih]

theorem keysOf_setStatus (t : Table) (a : String) (st : Status) :
    keysOf (setStatus t a st) = keysOf t := by
  unfold keysOf setStatus
  rw [List.map_map]
  apply List.map_congr_left
  intro p _
  by_cases hpa : p.1 = a <;> simp [hpa]

theorem lookupRow_eq_some_mem {t : Table} {s : String} {row : Row}
    (h : lookupRow t s = some row) : (s, row) ∈ t := by
  induction t with
  | nil => simp [lookupRow] at h
  | cons p ps ih =>
    by_cases hps : p.1 = s
    · obtain ⟨p1, p2⟩ := p
      simp only [lookupRow, if_pos hps] at h
      injection h with h2
      simp only at hps
      rw [← hps, ← h2]
      exact List.mem_cons_self _ _
    · simp only [lookupRow, if_neg hps] at h
      exact List.mem_cons_of_mem _ (ih h)

theorem lookupRow_eq_none_iff {t : Table} {s : String} :
    lookupRow t s = none ↔ s ∉ keysOf t := by
  induction t with
  | nil => simp [lookupRow, keysOf]
  | cons p ps ih =>
    by_cases hps : p.1 = s
    · simp [lookupRow, keysOf, if_pos hps, hps]
    · simp only [lookupRow, if_neg hps, keysOf, List.map_cons, List.mem_cons, not_or]
      constructor
      · intro h
        exact ⟨fun h2 => hps h2.symm, (ih.mp h : _)⟩
      · intro h
        exact ih.mpr h.2

theorem lookupRow_eq_some_of_mem {t : Table} (hnd : (keysOf t).Nodup) {s : String} {row : Row}
    (hmem : (s, row) ∈ t) : lookupRow t s = some row := by
  induction t with
  | nil => cases hmem
  | cons p ps ih =>
    rcases List.mem_cons.mp hmem with h | h
    · rw [← h]
      simp [lookupRow]
    · have hkey : s ∈ keysOf ps := List.mem_map_of_mem Prod.fst h
      have hps : ¬ p.1 = s := by
        intro hps
        have := (List.nodup_cons.mp hnd).1
        rw [hps] at this
        exact this hkey
      simp only [lookupRow, if_neg hps]
      exact ih (List.nodup_cons.mp hnd).2 h

theorem lookupRow_congr_perm {t t2 : Table} (hnd : (keysOf t).Nodup) (hp : t.Perm t2)
    (s : String) : lookupRow t s = lookupRow t2 s := by
  have hnd2 : (keysOf t2).Nodup := ((hp.map Prod.fst).nodup_iff).mp hnd
  cases hlk : lookupRow t s with
  | none =>
    have h1 : s ∉ keysOf t := lookupRow_eq_none_iff.mp hlk
    have h2 : s ∉ keysOf t2 := fun hin => h1 (((hp.map Prod.fst).mem_iff).mpr hin)
    exact (lookupRow_eq_none_iff.mpr h2).symm
  | some row =>
    exact (lookupRow_eq_some_of_mem hnd2 (hp.mem_iff.mp (lookupRow_eq_some_mem hlk))).symm

/-! ### Sort lemmas -/

theorem sortTable_perm (t : Table) : (sortTable t).Perm t := List.perm_insertionSort _ t

theorem sortTable_sorted (t : Table) : List.Sorted rowLeP (sortTable t) :=
  List.sorted_insertionSort _ t

theorem lookupRow_sortTable {t : Table} (hnd : (keysOf t).Nodup) (s : String) :
    lookupRow (sortTable t) s = lookupRow t s :=
  (lookupRow_congr_perm hnd (sortTable_perm t).symm s).symm

/-! ### Statistics lemmas -/

theorem countOcc_perm {l l2 : List ℚ} (hp : l.Perm l2) (q : ℚ) :
    countOcc l q = countOcc l2 q :=
  (hp.filter _).length_eq

theorem mean_perm {l l2 : List ℚ} (hp : l.Perm l2) : mean l = mean l2 := by
  unfold mean
  rw [hp.sum_eq, hp.length_eq]

theorem varPop_perm {l l2 : List ℚ} (hp : l.Perm l2) : varPop l = varPop l2 := by
  unfold varPop
  rw [mean_perm hp, (hp.map _).sum_eq, hp.length_eq]

theorem Better_congr {l l2 : List ℚ} (hp : l.Perm l2) (y b : ℚ) :
    Better l y b ↔ Better l2 y b := by
  unfold Better
  rw [countOcc_perm hp, countOcc_perm hp]

theorem Better.trans' {l : List ℚ} {x y z : ℚ} (h1 : Better l x y) (h2 : Better l y z) :
    Better l x z := by
  rcases h1 with h1 | ⟨h1a, h1b⟩ <;> rcases h2 with h2 | ⟨h2a, h2b⟩
  · exact Or.inl (lt_trans h2 h1)
  · exact Or.inl (by rw [← h2a]; exact h1)
  · exact Or.inl (by rw [h1a]; exact h2)
  · exact Or.inr ⟨h1a.trans h2a, lt_trans h1b h2b⟩

theorem Better.trichotomy (l : List ℚ) (y b : ℚ) : Better l y b ∨ Better l b y ∨ y = b := by
  rcases lt_trichotomy (countOcc l b) (countOcc l y) with h | h | h
  · exact Or.inl (Or.inl h)
  · rcases lt_trichotomy y b with h2 | h2 | h2
    · exact Or.inl (Or.inr ⟨h.symm, h2⟩)
    · exact Or.inr (Or.inr h2)
    · exact Or.inr (Or.inl (Or.inr ⟨h, h2⟩))
  · exact Or.inr (Or.inl (Or.inl h))

theorem Better.irrefl (l : List ℚ) (x : ℚ) : ¬ Better l x x := by
  rintro (h | ⟨h1, h2⟩)
  · exact lt_irrefl _ h
  · exact lt_irrefl _ h2

theorem modeFold_spec (l0 l : List ℚ) : ∀ acc : ℚ,
    (l.foldl (modeStep l0) acc = acc ∨ l.foldl (modeStep l0) acc ∈ l) ∧
    (∀ y ∈ l, ¬ Better l0 y (l.foldl (modeStep l0) acc)) ∧
    ¬ Better l0 acc (l.foldl (modeStep l0) acc) := by
  induction l with
  | nil => exact fun acc => ⟨Or.inl rfl, by simp, Better.irrefl l0 acc⟩
  | cons y l ih =>
    intro acc
    simp only [List.foldl_cons]
    obtain ⟨ih1, ih2, ih3⟩ := ih (modeStep l0 acc y)
    have hstep : modeStep l0 acc y = acc ∨ modeStep l0 acc y = y := by
      unfold modeStep; split <;> simp
    refine ⟨?_, ?_, ?_⟩
    · rcases ih1 with h | h
      · rcases hstep with h2 | h2
        · exact Or.inl (h.trans h2)
        · exact Or.inr (by rw [h, h2]; exact List.mem_cons_self _ _)
      · exact Or.inr (List.mem_cons_of_mem _ h)
    · intro z hz
      rcases List.mem_cons.mp hz with hz | hz
      · subst hz
        by_cases hb : Better l0 z acc
        · have he : modeStep l0 acc z = z := by unfold modeStep; exact if_pos hb
          rw [he] at ih3 ⊢
          exact ih3
        · have he : modeStep l0 acc z = acc := by unfold modeStep; exact if_neg hb
          rw [he] at ih3 ⊢
          intro hzr
          rcases Better.trichotomy l0 z acc with h3 | h3 | h3
          · exact hb h3
          · exact ih3 (Better.trans' h3 hzr)
          · rw [h3] at hzr; exact ih3 hzr
      · exact ih2 z hz
    · by_cases hb : Better l0 y acc
      · have he : modeStep l0 acc y = y := by unfold modeStep; exact if_pos hb
        rw [he] at ih3 ⊢
        exact fun har => ih3 (Better.trans' hb har)
      · have he : modeStep l0 acc y = acc := by unfold modeStep; exact if_neg hb
        rw [he] at ih3 ⊢
        exact ih3

theorem modeScore_spec {l : List ℚ} (h : l ≠ []) :
    modeScore l ∈ l ∧ ∀ y ∈ l, ¬ Better l y (modeScore l) := by
  cases l with
  | nil => exact absurd rfl h
  | cons x xs =>
    have hms : modeScore (x :: xs) = (x :: xs).foldl (modeStep (x :: xs)) x := rfl
    obtain ⟨h1, h2, _⟩ := modeFold_spec (x :: xs) (x :: xs) x
    refine ⟨?_, ?_⟩
    · rw [hms]
      rcases h1 with h1 | h1
      · rw [h1]; exact List.mem_cons_self _ _
      · exact h1
    · rw [hms]; exact h2

theorem modeScore_mem {l : List ℚ} (h : l ≠ []) : modeScore l ∈ l := (modeScore_spec h).1

theorem modeScore_perm {l l2 : List ℚ} (hp : l.Perm l2) : modeScore l = modeScore l2 := by
  cases l with
  | nil =>
    have h0 : l2 = [] := hp.symm.eq_nil
    rw [h0]
  | cons x xs =>
    have h1 : (x :: xs : List ℚ) ≠ [] := by simp
    have h2 : l2 ≠ [] := by
      intro h0
      rw [h0] at hp
      exact (List.cons_ne_nil x xs) hp.eq_nil
    obtain ⟨m1mem, m1best⟩ := modeScore_spec h1
    obtain ⟨m2mem, m2best⟩ := modeScore_spec h2
    rcases Better.trichotomy (x :: xs) (modeScore (x :: xs)) (modeScore l2) with h3 | h3 | h3
    · exact absurd ((Better_congr hp _ _).mp h3) (m2best _ (hp.mem_iff.mp m1mem))
    · exact absurd h3 (m1best _ (hp.mem_iff.mpr m2mem))
    · exact h3

theorem sum_nonneg_all_zero {l : List ℚ} (h0 : ∀ x ∈ l, 0 ≤ x) (hs : l.sum = 0) :
    ∀ x ∈ l, x = 0 := by
  induction l with
  | nil => simp
  | cons a l ih =>
    have ha : 0 ≤ a := h0 a (List.mem_cons_self _ _)
    have hl : 0 ≤ l.sum := List.sum_nonneg (fun x hx => h0 x (List.mem_cons_of_mem _ hx))
    have hsum : a + l.sum = 0 := by simpa using hs
    have ha0 : a = 0 := by linarith
    have hl0 : l.sum = 0 := by linarith
    intro x hx
    rcases List.mem_cons.mp hx with hx | hx
    · exact hx.trans ha0
    · exact ih (fun z hz => h0 z (List.mem_cons_of_mem _ hz)) hl0 x hx

theorem eq_mean_of_varPop_eq_zero {l : List ℚ} (hne : l ≠ []) (h : varPop l = 0) :
    ∀ x ∈ l, x = mean l := by
  unfold varPop at h
  have hlen : (l.length : ℚ) ≠ 0 := by
    have h1 : 0 < l.length := List.length_pos.mpr hne
    exact_mod_cast Nat.pos_iff_ne_zero.mp h1
  rw [div_eq_zero_iff] at h
  rcases h with h | h
  · intro x hx
    have hterm : (x - mean l) ^ 2 = 0 :=
      sum_nonneg_all_zero
        (fun z hz => by
          obtain ⟨w, _, hw⟩ := List.mem_map.mp hz
          rw [← hw]; exact sq_nonneg _)
        h _ (List.mem_map_of_mem _ hx)
    have : x - mean l = 0 := by
      exact pow_eq_zero_iff (n := 2) (by norm_num) |>.mp hterm
    linarith
  · exact absurd h hlen

theorem varPop_ne_zero_of_two {l : List ℚ} {a b : ℚ} (ha : a ∈ l) (hb : b ∈ l)
    (hab : a ≠ b) : varPop l ≠ 0 := by
  intro h
  have hne : l ≠ [] := by rintro rfl; cases ha
  exact hab ((eq_mean_of_varPop_eq_zero hne h a ha).trans
    (eq_mean_of_varPop_eq_zero hne h b hb).symm)

theorem varPop_singleton (x : ℚ) : varPop [x] = 0 := by
  simp [varPop, mean]

/-! ### Choice lemmas -/

theorem choiceM_mem {r : List String → Nat} {l : List String} {x : String}
    (h : choiceM r l = some x) : x ∈ l := by
  unfold choiceM at h
  exact List.get?_mem h

theorem choiceM_eq_none_iff {r : List String → Nat} {l : List String} :
    choiceM r l = none ↔ l = [] := by
  unfold choiceM
  constructor
  · intro h
    cases l with
    | nil => rfl
    | cons a as =>
      have hlt : r (a :: as) % (a :: as).length < (a :: as).length :=
        Nat.mod_lt _ (by simp)
      rw [List.get?_eq_get hlt] at h
      exact Option.noConfusion h
  · rintro rfl; rfl

theorem minFold_spec (l : List String) : ∀ acc : String,
    (l.foldl (fun a b => if strLe b a then b else a) acc = acc ∨
      l.foldl (fun a b => if strLe b a then b else a) acc ∈ l) ∧
    strLe (l.foldl (fun a b => if strLe b a then b else a) acc) acc = true ∧
    ∀ y ∈ l, strLe (l.foldl (fun a b => if strLe b a then b else a) acc) y = true := by
  induction l with
  | nil => exact fun acc => ⟨Or.inl rfl, strLe_refl acc, by simp⟩
  | cons y l ih =>
    intro acc
    simp only [List.foldl_cons]
    obtain ⟨ih1, ih2, ih3⟩ := ih (if strLe y acc then y else acc)
    by_cases hy : strLe y acc = true
    · rw [if_pos hy] at ih1 ih2 ih3 ⊢
      refine ⟨?_, ?_, ?_⟩
      · rcases ih1 with h | h
        · exact Or.inr (by rw [h]; exact List.mem_cons_self _ _)
        · exact Or.inr (List.mem_cons_of_mem _ h)
      · exact strLe_trans ih2 hy
      · intro z hz
        rcases List.mem_cons.mp hz with hz | hz
        · subst hz; exact ih2
        · exact ih3 z hz
    · rw [if_neg hy] at ih1 ih2 ih3 ⊢
      have hge : strLe acc y = true := by
        rcases strLe_total y acc with h2 | h2
        · exact absurd h2 hy
        · exact h2
      refine ⟨?_, ?_, ?_⟩
      · rcases ih1 with h | h
        · exact Or.inl h
        · exact Or.inr (List.mem_cons_of_mem _ h)
      · exact ih2
      · intro z hz
        rcases List.mem_cons.mp hz with hz | hz
        · subst hz; exact strLe_trans ih2 hge
        · exact ih3 z hz

theorem detChoice_spec {l : List String} {m : String} (h : detChoice l = some m) :
    m ∈ l ∧ ∀ y ∈ l, strLe m y = true := by
  cases l with
  | nil => exact Option.noConfusion h
  | cons x xs =>
    unfold detChoice at h
    injection h with h
    obtain ⟨h1, h2, h3⟩ := minFold_spec xs x
    rw [h] at h1 h2 h3
    refine ⟨?_, ?_⟩
    · rcases h1 with h1 | h1
      · rw [h1]; exact List.mem_cons_self _ _
      · exact List.mem_cons_of_mem _ h1
    · intro y hy
      rcases List.mem_cons.mp hy with hy | hy
      · rw [hy]; exact h2
      · exact h3 y hy

theorem detChoice_eq_none_iff {l : List String} : detChoice l = none ↔ l = [] := by
  cases l <;> simp [detChoice]

theorem detChoice_mem {l : List String} {x : String} (h : detChoice l = some x) : x ∈ l :=
  (detChoice_spec h).1

theorem detChoice_perm {l l2 : List String} (hp : l.Perm l2) : detChoice l = detChoice l2 := by
  cases hl : detChoice l with
  | none =>
    have h0 : l = [] := detChoice_eq_none_iff.mp hl
    subst h0
    have h2 : l2 = [] := hp.symm.eq_nil
    subst h2
    rfl
  | some m =>
    cases hl2 : detChoice l2 with
    | none =>
      have : l2 = [] := detChoice_eq_none_iff.mp hl2
      subst this
      rw [hp.eq_nil] at hl
      exact Option.noConfusion hl
    | some m2 =>
      obtain ⟨hm1, hb1⟩ := detChoice_spec hl
      obtain ⟨hm2, hb2⟩ := detChoice_spec hl2
      have e : m = m2 :=
        strLe_antisymm (hb1 _ (hp.mem_iff.mpr hm2)) (hb2 _ (hp.mem_iff.mp hm1))
      rw [e]

/-! ### Per-group process lemmas -/

theorem hasRep_iff {base : Table} {l : List String} :
    hasRep base l = true ↔
      ∃ m ∈ l, lookupStatus base m = some Status.dereplication_representative := by
  unfold hasRep
  rw [List.any_eq_true]
  simp only [decide_eq_true_eq]

theorem mem_outliersOf {hits : String → HitData} {z0 msd : ℚ} {cg : List String} {s : String} :
    s ∈ outliersOf hits z0 msd cg ↔ s ∈ cg ∧
      isOutlier (scoresOf hits cg) (hits s).score (modeScore (scoresOf hits cg)) z0 msd
        = true := by
  unfold outliersOf
  rw [List.mem_filter]

theorem mem_nonOutliersOf {hits : String → HitData} {z0 msd : ℚ} {cg : List String}
    {s : String} :
    s ∈ nonOutliersOf hits z0 msd cg ↔ s ∈ cg ∧
      isOutlier (scoresOf hits cg) (hits s).score (modeScore (scoresOf hits cg)) z0 msd
        = false := by
  unfold nonOutliersOf
  rw [List.mem_filter]
  simp only [Bool.not_eq_true']

theorem lookupRow_outlierFold (base : Table) (os : List String) (t : Table) (s : String) :
    lookupRow (os.foldl (fun acc o =>
        if lookupStatus base o = some Status.dereplication_representative then acc
        else setStatus acc o Status.readded_by_outlier_score) t) s =
      if s ∈ os ∧ ¬ lookupStatus base s = some Status.dereplication_representative then
        applyDecision (lookupRow t s) (some Status.readded_by_outlier_score)
      else lookupRow t s := by
  induction os generalizing t with
  | nil => simp
  | cons o os ih =>
    simp only [List.foldl_cons]
    rw [ih]
    by_cases ho : lookupStatus base o = some Status.dereplication_representative
    · rw [if_pos ho]
      have hiff : (s ∈ os ∧ ¬ lookupStatus base s = some Status.dereplication_representative)
          ↔ (s ∈ o :: os ∧
              ¬ lookupStatus base s = some Status.dereplication_representative) := by
        constructor
        · exact fun hh => ⟨List.mem_cons_of_mem _ hh.1, hh.2⟩
        · rintro ⟨hmem, hrep⟩
          rcases List.mem_cons.mp hmem with he | he
          · exact absurd (by rw [he]; exact ho) hrep
          · exact ⟨he, hrep⟩
      rw [if_congr hiff rfl rfl]
    · rw [if_neg ho, lookupRow_setStatus]
      by_cases hos : o = s
      · rw [if_pos hos]
        have hrepS : ¬ lookupStatus base s = some Status.dereplication_representative := by
          rw [← hos]; exact ho
        have hcond : s ∈ o :: os ∧
            ¬ lookupStatus base s = some Status.dereplication_representative :=
          ⟨List.mem_cons.mpr (Or.inl hos.symm), hrepS⟩
        rw [if_pos hcond]
        by_cases hA : s ∈ os ∧
            ¬ lookupStatus base s = some Status.dereplication_representative
        · rw [if_pos hA, applyDecision_idem]
        · rw [if_neg hA]
      · rw [if_neg hos]
        have hiff : (s ∈ os ∧ ¬ lookupStatus base s = some Status.dereplication_representative)
            ↔ (s ∈ o :: os ∧
                ¬ lookupStatus base s = some Status.dereplication_representative) := by
          constructor
          · exact fun hh => ⟨List.mem_cons_of_mem _ hh.1, hh.2⟩
          · rintro ⟨hmem, hrep⟩
            rcases List.mem_cons.mp hmem with he | he
            · exact absurd he.symm hos
            · exact ⟨he, hrep⟩
        rw [if_congr hiff rfl rfl]

theorem lookupRow_applyOutliers (base : Table) (hits : String → HitData) (z0 msd : ℚ)
    (cg : List String) (t : Table) (s : String) :
    lookupRow (applyOutliers base hits z0 msd cg t) s =
      if s ∈ outliersOf hits z0 msd cg ∧
          ¬ lookupStatus base s = some Status.dereplication_representative then
        applyDecision (lookupRow t s) (some Status.readded_by_outlier_score)
      else lookupRow t s := by
  unfold applyOutliers
  exact lookupRow_outlierFold base _ t s

theorem keysOf_applyOutliers (base : Table) (hits : String → HitData) (z0 msd : ℚ)
    (cg : List String) (t : Table) :
    keysOf (applyOutliers base hits z0 msd cg t) = keysOf t := by
  unfold applyOutliers
  generalize outliersOf hits z0 msd cg = os
  induction os generalizing t with
  | nil => rfl
  | cons o os ih =>
    simp only [List.foldl_cons]
    rw [ih]
    by_cases ho : lookupStatus base o = some Status.dereplication_representative
    · rw [if_pos ho]
    · rw [if_neg ho, keysOf_setStatus]

theorem keysOf_processContentGroup {base : Table} {hits : String → HitData} {nbs : Bool}
    {z0 msd : ℚ} {choose : List String → Option String} {t t2 : Table} {cg : List String}
    (h : processContentGroup base hits nbs z0 msd choose t cg = some t2) :
    keysOf t2 = keysOf t := by
  unfold processContentGroup at h
  by_cases hbr : (nbs || decide (varPop (scoresOf hits cg) = 0)) = true
  · rw [if_pos hbr] at h
    by_cases hrep : hasRep base cg = true
    · rw [if_pos hrep] at h
      injection h with h2
      rw [← h2]
    · rw [if_neg hrep] at h
      rcases Option.map_eq_some'.mp h with ⟨m, _, ht2⟩
      rw [← ht2, keysOf_setStatus]
  · rw [if_neg hbr] at h
    by_cases hrep : hasRep base (nonOutliersOf hits z0 msd cg) = true
    · rw [if_pos hrep] at h
      injection h with h2
      rw [← h2, keysOf_applyOutliers]
    · rw [if_neg hrep] at h
      rcases Option.map_eq_some'.mp h with ⟨m, _, ht2⟩
      rw [← ht2, keysOf_setStatus, keysOf_applyOutliers]

theorem processContentGroup_isSome_congr (base : Table) (hits : String → HitData)
    (nbs : Bool) (z0 msd : ℚ) (choose : List String → Option String)
    (t t' : Table) (cg : List String) :
    (processContentGroup base hits nbs z0 msd choose t cg).isSome =
      (processContentGroup base hits nbs z0 msd choose t' cg).isSome := by
  unfold processContentGroup
  split_ifs <;> simp

theorem processContentGroup_lookup {base : Table} {hits : String → HitData} {nbs : Bool}
    {z0 msd : ℚ} {choose : List String → Option String}
    (hm : ∀ l x, choose l = some x → x ∈ l)
    {t t2 : Table} {cg : List String}
    (h : processContentGroup base hits nbs z0 msd choose t cg = some t2) (s : String) :
    lookupRow t2 s =
      if s ∈ cg then
        applyDecision (lookupRow t s) (groupDecision base hits nbs z0 msd choose cg s)
      else lookupRow t s := by
  unfold processContentGroup at h
  unfold groupDecision
  by_cases hbr : (nbs || decide (varPop (scoresOf hits cg) = 0)) = true
  · rw [if_pos hbr] at h ⊢
    by_cases hrep : hasRep base cg = true
    · rw [if_pos hrep] at h ⊢
      injection h with h2
      subst h2
      split_ifs <;> rfl
    · rw [if_neg hrep] at h ⊢
      rcases Option.map_eq_some'.mp h with ⟨m, hchoose, ht2⟩
      subst ht2
      rw [lookupRow_setStatus]
      by_cases hms : m = s
      · have hscg : s ∈ cg := by rw [← hms]; exact hm _ _ hchoose
        have hcs : choose cg = some s := by rw [← hms]; exact hchoose
        rw [if_pos hms, if_pos hscg, if_pos hcs]
      · have hc2 : ¬ choose cg = some s := fun hc =>
          hms (Option.some.inj (hchoose.symm.trans hc))
        rw [if_neg hms, if_neg hc2]
        split_ifs <;> rfl
  · rw [if_neg hbr] at h ⊢
    by_cases hrep : hasRep base (nonOutliersOf hits z0 msd cg) = true
    · rw [if_pos hrep] at h ⊢
      injection h with h2
      subst h2
      rw [lookupRow_applyOutliers]
      by_cases hout : isOutlier (scoresOf hits cg) (hits s).score
          (modeScore (scoresOf hits cg)) z0 msd = true
      · rw [if_pos hout]
        by_cases hrepS : lookupStatus base s = some Status.dereplication_representative
        · rw [if_pos hrepS, if_neg (fun hc => hc.2 hrepS)]
          split_ifs <;> rfl
        · rw [if_neg hrepS]
          by_cases hmem : s ∈ cg
          · rw [if_pos ⟨mem_outliersOf.mpr ⟨hmem, hout⟩, hrepS⟩, if_pos hmem]
          · have hnout : ¬ s ∈ outliersOf hits z0 msd cg := fun hc =>
              hmem (mem_outliersOf.mp hc).1
            rw [if_neg (fun hc => hnout hc.1), if_neg hmem]
      · rw [if_neg hout]
        have hnout : ¬ s ∈ outliersOf hits z0 msd cg := fun hc =>
          hout (mem_outliersOf.mp hc).2
        rw [if_neg (fun hc => hnout hc.1)]
        split_ifs <;> rfl
    · rw [if_neg hrep] at h ⊢
      rcases Option.map_eq_some'.mp h with ⟨m, hchoose, ht2⟩
      subst ht2
      rw [lookupRow_setStatus, lookupRow_applyOutliers]
      have hmnon : m ∈ nonOutliersOf hits z0 msd cg := hm _ _ hchoose
      obtain ⟨hmcg, hmout⟩ := mem_nonOutliersOf.mp hmnon
      by_cases hms : m = s
      · have hscg : s ∈ cg := by rw [← hms]; exact hmcg
        have hsout : isOutlier (scoresOf hits cg) (hits s).score
            (modeScore (scoresOf hits cg)) z0 msd = false := by
          rw [← hms]; exact hmout
        have hnotmem : ¬ s ∈ outliersOf hits z0 msd cg := by
          intro hc
          rw [(mem_outliersOf.mp hc).2] at hsout
          exact Bool.noConfusion hsout
        have hcs : choose (nonOutliersOf hits z0 msd cg) = some s := by
          rw [← hms]; exact hchoose
        rw [if_pos hms, if_neg (fun hc => hnotmem hc.1), if_pos hscg,
          if_neg (by rw [hsout]; exact Bool.false_ne_true), if_pos hcs]
      · rw [if_neg hms]
        have hc2 : ¬ choose (nonOutliersOf hits z0 msd cg) = some s := fun hc =>
          hms (Option.some.inj (hchoose.symm.trans hc))
        by_cases hout : isOutlier (scoresOf hits cg) (hits s).score
            (modeScore (scoresOf hits cg)) z0 msd = true
        · by_cases hrepS : lookupStatus base s = some Status.dereplication_representative
          · rw [if_neg (fun hc => hc.2 hrepS), if_pos hout, if_pos hrepS]
            split_ifs <;> rfl
          · by_cases hmem : s ∈ cg
            · rw [if_pos ⟨mem_outliersOf.mpr ⟨hmem, hout⟩, hrepS⟩, if_pos hmem,
                if_pos hout, if_neg hrepS]
            · have hnout : ¬ s ∈ outliersOf hits z0 msd cg := fun hc =>
                hmem (mem_outliersOf.mp hc).1
              rw [if_neg (fun hc => hnout hc.1), if_neg hmem]
        · have hnout : ¬ s ∈ outliersOf hits z0 msd cg := fun hc =>
            hout (mem_outliersOf.mp hc).2
          rw [if_neg (fun hc => hnout hc.1), if_neg hout, if_neg hc2]
          split_ifs <;> rfl

/-! ### Partition lemmas: every scaffold lies in exactly its own group -/

theorem mem_membersOfRep {t : Table} {rep s : String} :
    s ∈ membersOfRep t rep ↔ ∃ row : Row, (s, row) ∈ t ∧ row.representative = rep := by
  unfold membersOfRep
  rw [List.mem_map]
  constructor
  · rintro ⟨p, hp, hfst⟩
    obtain ⟨hpt, hrep⟩ := List.mem_filter.mp hp
    refine ⟨p.2, ?_, of_decide_eq_true hrep⟩
    have he : (s, p.2) = p := by rw [← hfst]
    rw [he]
    exact hpt
  · rintro ⟨row, hmem, hrep⟩
    exact ⟨(s, row), List.mem_filter.mpr ⟨hmem, by simp [hrep]⟩, rfl⟩

theorem mem_contentGroup {hits : String → HitData} {g : List String} {c : List Int}
    {s : String} : s ∈ contentGroup hits g c ↔ s ∈ g ∧ (hits s).content = c := by
  unfold contentGroup
  rw [List.mem_filter]
  simp only [decide_eq_true_eq]

theorem mem_repsOf {t : Table} {rep : String} :
    rep ∈ repsOf t ↔ ∃ p ∈ t, p.2.representative = rep := by
  unfold repsOf
  rw [(List.perm_insertionSort _ _).mem_iff, List.mem_dedup, List.mem_map]

theorem mem_contentsOf {hits : String → HitData} {g : List String} {c : List Int} :
    c ∈ contentsOf hits g ↔ ∃ s ∈ g, (hits s).content = c := by
  unfold contentsOf
  rw [List.mem_dedup, List.mem_map]

theorem ownGroup_eq {hits : String → HitData} {t : Table} {s : String} {row : Row}
    (h : lookupRow t s = some row) :
    ownGroup hits t s =
      contentGroup hits (membersOfRep t row.representative) (hits s).content := by
  unfold ownGroup
  rw [h]

theorem ownGroup_self_mem {hits : String → HitData} {t : Table} {s : String} {row : Row}
    (h : lookupRow t s = some row) : s ∈ ownGroup hits t s := by
  rw [ownGroup_eq h]
  exact mem_contentGroup.mpr
    ⟨mem_membersOfRep.mpr ⟨row, lookupRow_eq_some_mem h, rfl⟩, rfl⟩

theorem ownGroup_mem_all {hits : String → HitData} {t : Table} {s : String} {row : Row}
    (h : lookupRow t s = some row) : ownGroup hits t s ∈ allContentGroups hits t := by
  unfold allContentGroups
  rw [List.mem_flatMap]
  refine ⟨row.representative, mem_repsOf.mpr ⟨(s, row), lookupRow_eq_some_mem h, rfl⟩, ?_⟩
  unfold contentGroupsOf
  rw [List.mem_map]
  refine ⟨(hits s).content, ?_, ?_⟩
  · exact mem_contentsOf.mpr
      ⟨s, mem_membersOfRep.mpr ⟨row, lookupRow_eq_some_mem h, rfl⟩, rfl⟩
  · rw [ownGroup_eq h]

theorem eq_ownGroup_of_mem {hits : String → HitData} {t : Table}
    (hnd : (keysOf t).Nodup) {cg : List String} {s : String}
    (hcg : cg ∈ allContentGroups hits t) (hs : s ∈ cg) : cg = ownGroup hits t s := by
  unfold allContentGroups at hcg
  rw [List.mem_flatMap] at hcg
  obtain ⟨rep, hrep, hcg⟩ := hcg
  unfold contentGroupsOf at hcg
  rw [List.mem_map] at hcg
  obtain ⟨c, hc, hcgeq⟩ := hcg
  subst hcgeq
  obtain ⟨hsm, hsc⟩ := mem_contentGroup.mp hs
  obtain ⟨row, hrowmem, hrowrep⟩ := mem_membersOfRep.mp hsm
  have hlk : lookupRow t s = some row := lookupRow_eq_some_of_mem hnd hrowmem
  rw [ownGroup_eq hlk, hrowrep, hsc]

theorem mem_keys_of_mem_group {hits : String → HitData} {t : Table} {cg : List String}
    {s : String} (hcg : cg ∈ allContentGroups hits t) (hs : s ∈ cg) : s ∈ keysOf t := by
  unfold allContentGroups at hcg
  rw [List.mem_flatMap] at hcg
  obtain ⟨rep, _, hcg⟩ := hcg
  unfold contentGroupsOf at hcg
  rw [List.mem_map] at hcg
  obtain ⟨c, _, hcgeq⟩ := hcg
  subst hcgeq
  obtain ⟨hsm, _⟩ := mem_contentGroup.mp hs
  obtain ⟨row, hrowmem, _⟩ := mem_membersOfRep.mp hsm
  exact List.mem_map_of_mem Prod.fst hrowmem

/-! ### Folding over all content groups -/

theorem process_groups_cons {base : Table} {hits : String → HitData} {nbs : Bool}
    {z0 msd : ℚ} {choose : List String → Option String} {t : Table}
    {cg : List String} {L : List (List String)} :
    process_groups base hits nbs z0 msd choose t (cg :: L) =
      (processContentGroup base hits nbs z0 msd choose t cg).bind
        (fun tm => process_groups base hits nbs z0 msd choose tm L) := by
  unfold process_groups
  rfl

theorem keysOf_process_groups {base : Table} {hits : String → HitData} {nbs : Bool}
    {z0 msd : ℚ} {choose : List String → Option String} :
    ∀ {L : List (List String)} {t t2 : Table},
      process_groups base hits nbs z0 msd choose t L = some t2 → keysOf t2 = keysOf t := by
  intro L
  induction L with
  | nil =>
    intro t t2 h
    injection h with h
    rw [← h]
  | cons cg L ih =>
    intro t t2 h
    rw [process_groups_cons] at h
    rcases Option.bind_eq_some.mp h with ⟨tm, h1, h2⟩
    rw [ih h2, keysOf_processContentGroup h1]

theorem process_groups_lookup_of_not_mem {base : Table} {hits : String → HitData}
    {nbs : Bool} {z0 msd : ℚ} {choose : List String → Option String}
    (hm : ∀ l x, choose l = some x → x ∈ l) :
    ∀ {L : List (List String)} {t t2 : Table} {s : String},
      (∀ cg ∈ L, s ∉ cg) →
      process_groups base hits nbs z0 msd choose t L = some t2 →
      lookupRow t2 s = lookupRow t s := by
  intro L
  induction L with
  | nil =>
    intro t t2 s _ h
    injection h with h
    rw [← h]
  | cons cg L ih =>
    intro t t2 s hnot h
    rw [process_groups_cons] at h
    rcases Option.bind_eq_some.mp h with ⟨tm, h1, h2⟩
    have e1 : lookupRow tm s = lookupRow t s := by
      rw [processContentGroup_lookup hm h1 s, if_neg (hnot cg (List.mem_cons_self _ _))]
    rw [ih (fun g hg => hnot g (List.mem_cons_of_mem _ hg)) h2, e1]

theorem process_groups_lookup {base : Table} {hits : String → HitData} {nbs : Bool}
    {z0 msd : ℚ} {choose : List String → Option String}
    (hm : ∀ l x, choose l = some x → x ∈ l) {G : List String} {s : String} (hsG : s ∈ G) :
    ∀ {L : List (List String)} {t t2 : Table},
      (∀ cg ∈ L, s ∈ cg → cg = G) →
      process_groups base hits nbs z0 msd choose t L = some t2 →
      lookupRow t2 s =
        if G ∈ L then
          applyDecision (lookupRow t s) (groupDecision base hits nbs z0 msd choose G s)
        else lookupRow t s := by
  intro L
  induction L with
  | nil =>
    intro t t2 _ h
    injection h with h
    rw [← h, if_neg (List.not_mem_nil G)]
  | cons cg L ih =>
    intro t t2 hG h
    rw [process_groups_cons] at h
    rcases Option.bind_eq_some.mp h with ⟨tm, h1, h2⟩
    by_cases hscg : s ∈ cg
    · have hcgG : cg = G := hG cg (List.mem_cons_self _ _) hscg
      subst hcgG
      have e1 : lookupRow tm s =
          applyDecision (lookupRow t s) (groupDecision base hits nbs z0 msd choose cg s) := by
        rw [processContentGroup_lookup hm h1 s, if_pos hscg]
      have e2 := ih (fun g hg hs2 => hG g (List.mem_cons_of_mem _ hg) hs2) h2
      rw [e2]
      by_cases hGL : cg ∈ L
      · rw [if_pos hGL, e1, applyDecision_idem, if_pos (List.mem_cons_self _ _)]
      · rw [if_neg hGL, e1, if_pos (List.mem_cons_self _ _)]
    · have hne : ¬ cg = G := fun he => hscg (by rw [he]; exact hsG)
      have e1 : lookupRow tm s = lookupRow t s := by
        rw [processContentGroup_lookup hm h1 s, if_neg hscg]
      have e2 := ih (fun g hg hs2 => hG g (List.mem_cons_of_mem _ hg) hs2) h2
      rw [e2, e1]
      have hmemiff : (G ∈ cg :: L) ↔ (G ∈ L) := by
        rw [List.mem_cons]
        constructor
        · rintro (he | he)
          · exact absurd he.symm hne
          · exact he
        · exact Or.inr
      rw [if_congr hmemiff rfl rfl]

theorem process_groups_isSome_iff {base : Table} {hits : String → HitData} {nbs : Bool}
    {z0 msd : ℚ} {choose : List String → Option String} :
    ∀ {L : List (List String)} {t : Table},
      (process_groups base hits nbs z0 msd choose t L).isSome = true ↔
        ∀ cg ∈ L, (processContentGroup base hits nbs z0 msd choose t cg).isSome = true := by
  intro L
  induction L with
  | nil => intro t; simp [process_groups]
  | cons cg L ih =>
    intro t
    rw [process_groups_cons]
    cases h1 : processContentGroup base hits nbs z0 msd choose t cg with
    | none =>
      simp only [Option.none_bind, Option.isSome_none]
      constructor
      · intro h; exact Bool.noConfusion h
      · intro h
        have := h cg (List.mem_cons_self _ _)
        rw [h1] at this
        exact Bool.noConfusion this
    | some tm =>
      simp only [Option.some_bind]
      rw [ih]
      constructor
      · intro h g hg
        rcases List.mem_cons.mp hg with he | he
        · rw [he, h1]; rfl
        · rw [processContentGroup_isSome_congr base hits nbs z0 msd choose t tm g]
          exact h g he
      · intro h g hg
        rw [processContentGroup_isSome_congr base hits nbs z0 msd choose tm t g]
        exact h g (List.mem_cons_of_mem _ hg)

theorem recover_hits_core_lookup {choose : List String → Option String}
    (hm : ∀ l x, choose l = some x → x ∈ l)
    {hits : String → HitData} {t : Table} {nbs : Bool} {z0 msd : ℚ} {t2 : Table}
    (hnd : (keysOf t).Nodup)
    (h : recover_hits_core choose hits t false nbs z0 msd = some t2) (s : String) :
    lookupRow t2 s =
      applyDecision (lookupRow t s)
        (groupDecision t hits nbs z0 msd choose (ownGroup hits t s) s) := by
  unfold recover_hits_core at h
  rw [if_neg (by simp : ¬ (false : Bool) = true)] at h
  rcases Option.map_eq_some'.mp h with ⟨tpre, hpre, ht2⟩
  subst ht2
  have hkeys : keysOf tpre = keysOf t := keysOf_process_groups hpre
  have hndpre : (keysOf tpre).Nodup := by rw [hkeys]; exact hnd
  rw [lookupRow_sortTable hndpre]
  cases hlk : lookupRow t s with
  | none =>
    have hnk : s ∉ keysOf t := lookupRow_eq_none_iff.mp hlk
    have hnot : ∀ cg ∈ allContentGroups hits t, s ∉ cg := fun cg hcg hs =>
      hnk (mem_keys_of_mem_group hcg hs)
    rw [process_groups_lookup_of_not_mem hm hnot hpre, hlk, applyDecision_none_left]
  | some row =>
    have e := process_groups_lookup hm (ownGroup_self_mem hlk)
      (fun cg hcg hs => eq_ownGroup_of_mem hnd hcg hs) hpre
    rw [e, if_pos (ownGroup_mem_all hlk), hlk]

/-! ### Decision-value lemmas -/

theorem lookupStatus_of_lookupRow {t : Table} {s : String} {row : Row}
    (h : lookupRow t s = some row) : lookupStatus t s = some row.dereplication_status := by
  unfold lookupStatus
  rw [h]
  rfl

theorem lookupStatus_of_none {t : Table} {s : String}
    (h : lookupRow t s = none) : lookupStatus t s = none := by
  unfold lookupStatus
  rw [h]
  rfl

theorem groupDecision_values (base : Table) (hits : String → HitData) (nbs : Bool)
    (z0 msd : ℚ) (choose : List String → Option String) (cg : List String) (s : String) :
    groupDecision base hits nbs z0 msd choose cg s = none ∨
    groupDecision base hits nbs z0 msd choose cg s = some Status.readded_by_cluster_content ∨
    groupDecision base hits nbs z0 msd choose cg s
      = some Status.readded_by_outlier_score := by
  unfold groupDecision
  split_ifs <;> simp

theorem groupDecision_st_ne_rep {base : Table} {hits : String → HitData} {nbs : Bool}
    {z0 msd : ℚ} {choose : List String → Option String}
    (hm : ∀ l x, choose l = some x → x ∈ l) {cg : List String} {s : String} {st : Status}
    (h : groupDecision base hits nbs z0 msd choose cg s = some st) :
    ¬ lookupStatus base s = some Status.dereplication_representative := by
  unfold groupDecision at h
  by_cases hbr : (nbs || decide (varPop (scoresOf hits cg) = 0)) = true
  · rw [if_pos hbr] at h
    by_cases hrep : hasRep base cg = true
    · rw [if_pos hrep] at h
      exact Option.noConfusion h
    · rw [if_neg hrep] at h
      by_cases hc : choose cg = some s
      · intro hs
        exact hrep (hasRep_iff.mpr ⟨s, hm _ _ hc, hs⟩)
      · rw [if_neg hc] at h
        exact Option.noConfusion h
  · rw [if_neg hbr] at h
    by_cases hout : isOutlier (scoresOf hits cg) (hits s).score
        (modeScore (scoresOf hits cg)) z0 msd = true
    · rw [if_pos hout] at h
      by_cases hreps : lookupStatus base s = some Status.dereplication_representative
      · rw [if_pos hreps] at h
        exact Option.noConfusion h
      · exact hreps
    · rw [if_neg hout] at h
      by_cases hrep : hasRep base (nonOutliersOf hits z0 msd cg) = true
      · rw [if_pos hrep] at h
        exact Option.noConfusion h
      · rw [if_neg hrep] at h
        by_cases hc : choose (nonOutliersOf hits z0 msd cg) = some s
        · intro hs
          exact hrep (hasRep_iff.mpr ⟨s, hm _ _ hc, hs⟩)
        · rw [if_neg hc] at h
          exact Option.noConfusion h

theorem lookupStatus_applyDecision_some {t2 t : Table} {s : String} {row : Row}
    {d : Option Status} (h : lookupRow t2 s = applyDecision (lookupRow t s) d)
    (hlk : lookupRow t s = some row) :
    lookupStatus t2 s = some (d.getD row.dereplication_status) := by
  unfold lookupStatus
  rw [h, hlk]
  cases d <;> rfl

theorem lookupStatus_applyDecision_none {t2 t : Table} {s : String} {d : Option Status}
    (h : lookupRow t2 s = applyDecision (lookupRow t s) d)
    (hlk : lookupRow t s = none) : lookupStatus t2 s = none := by
  unfold lookupStatus
  rw [h, hlk]
  cases d <;> rfl

/-! ### Claim C2 -/

/-- C2 (counterexample): on an input table whose only hit already carries
status `readded_by_outlier_score` — a status that is neither `redundant`
nor `representative` — `recover_hits` still rewrites the status, to
`readded_by_cluster_content`; so, quantified over arbitrary input status
tables, the claim that the only status changes are upgrades of redundant
entries is false. -/
theorem C2_counterexample :
    recover_hits (fun _ => ⟨[1], 5⟩) [("a", ⟨"R", Status.readded_by_outlier_score⟩)]
        (fun _ => 0) false false 2 (1/10)
      = some [("a", ⟨"R", Status.readded_by_cluster_content⟩)] := by decide

/-- C2 (amended): restricted to base tables as the cluster-table builder
produces them (unique scaffold keys; every status `representative` or
`redundant`), `recover_hits` is monotonic and additive: a representative
hit never changes status, every status read off the output either is the
base status or upgrades a redundant entry to `readded_by_cluster_content`
or `readded_by_outlier_score`, and every non-redundant hit keeps its
status (so the non-redundant set only grows). -/
theorem C2_theorem (hits : String → HitData) (t : Table) (r : List String → Nat)
    (nbs : Bool) (z0 msd : ℚ) (t2 : Table)
    (hnd : (keysOf t).Nodup) (hbase : builderStatuses t)
    (h : recover_hits hits t r false nbs z0 msd = some t2) :
    (∀ s, lookupStatus t s = some Status.dereplication_representative →
      lookupStatus t2 s = some Status.dereplication_representative) ∧
    (∀ s st, lookupStatus t2 s = some st →
      lookupStatus t s = some st ∨
        (lookupStatus t s = some Status.redundant ∧
          (st = Status.readded_by_cluster_content ∨
            st = Status.readded_by_outlier_score))) ∧
    (∀ s st, lookupStatus t s = some st → st ≠ Status.redundant →
      lookupStatus t2 s = some st) := by
  have hm : ∀ l x, choiceM r l = some x → x ∈ l := fun l x => choiceM_mem
  have hper : ∀ s, lookupRow t2 s = applyDecision (lookupRow t s)
      (groupDecision t hits nbs z0 msd (choiceM r) (ownGroup hits t s) s) :=
    fun s => recover_hits_core_lookup hm hnd h s
  have hrep : ∀ s, lookupStatus t s = some Status.dereplication_representative →
      lookupStatus t2 s = some Status.dereplication_representative := by
    intro s hs
    cases hlk : lookupRow t s with
    | none =>
      rw [lookupStatus_of_none hlk] at hs
      exact Option.noConfusion hs
    | some row =>
      rw [lookupStatus_of_lookupRow hlk] at hs
      have hrow : row.dereplication_status = Status.dereplication_representative :=
        Option.some.inj hs
      rw [lookupStatus_applyDecision_some (hper s) hlk]
      cases hdec : groupDecision t hits nbs z0 msd (choiceM r) (ownGroup hits t s) s with
      | none => rw [Option.getD_none, hrow]
      | some st =>
        exact absurd (by rw [lookupStatus_of_lookupRow hlk, hrow])
          (groupDecision_st_ne_rep hm hdec)
  refine ⟨hrep, ?_, ?_⟩
  · intro s st hst
    cases hlk : lookupRow t s with
    | none =>
      rw [lookupStatus_applyDecision_none (hper s) hlk] at hst
      exact Option.noConfusion hst
    | some row =>
      rw [lookupStatus_applyDecision_some (hper s) hlk] at hst
      cases hdec : groupDecision t hits nbs z0 msd (choiceM r) (ownGroup hits t s) s with
      | none =>
        rw [hdec, Option.getD_none] at hst
        left
        rw [lookupStatus_of_lookupRow hlk]
        exact hst
      | some st2 =>
        rw [hdec, Option.getD_some] at hst
        have hst2 : st2 = st := Option.some.inj hst
        have hnotrep : ¬ lookupStatus t s = some Status.dereplication_representative :=
          groupDecision_st_ne_rep hm hdec
        rcases hbase (s, row) (lookupRow_eq_some_mem hlk) with hb | hb
        · exact absurd (by rw [lookupStatus_of_lookupRow hlk, hb]) hnotrep
        · right
          refine ⟨by rw [lookupStatus_of_lookupRow hlk, hb], ?_⟩
          rcases groupDecision_values t hits nbs z0 msd (choiceM r) (ownGroup hits t s) s
            with hv | hv | hv
          · rw [hdec] at hv
            exact Option.noConfusion hv
          · rw [hdec] at hv
            exact Or.inl ((Option.some.inj hv).symm.trans hst2).symm
          · rw [hdec] at hv
            exact Or.inr ((Option.some.inj hv).symm.trans hst2).symm
  · intro s st hst hne
    cases hlk : lookupRow t s with
    | none =>
      rw [lookupStatus_of_none hlk] at hst
      exact Option.noConfusion hst
    | some row =>
      rw [lookupStatus_of_lookupRow hlk] at hst
      have hrow : row.dereplication_status = st := Option.some.inj hst
      rcases hbase (s, row) (lookupRow_eq_some_mem hlk) with hb | hb
      · have hstrep : st = Status.dereplication_representative := by rw [← hrow, hb]
        rw [hstrep]
        exact hrep s (by rw [lookupStatus_of_lookupRow hlk, hb])
      · rw [hrow] at hb
        exact absurd hb hne

/-- C2 (witness): on the five-hit example whose representative is the score
outlier, the amended theorem applies and the representative keeps its
status through recovery. -/
theorem C2_witness :
    lookupStatus
      [("e", ⟨"R", Status.dereplication_representative⟩),
        ("a", ⟨"R", Status.readded_by_cluster_content⟩),
        ("b", ⟨"R", Status.redundant⟩), ("c", ⟨"R", Status.redundant⟩),
        ("d", ⟨"R", Status.redundant⟩)] "e"
      = some Status.dereplication_representative := by
  have h := C2_theorem hitsRepOutlier tableRepOutlier (fun _ => 0) false 2 (1/10)
    [("e", ⟨"R", Status.dereplication_representative⟩),
      ("a", ⟨"R", Status.readded_by_cluster_content⟩),
      ("b", ⟨"R", Status.redundant⟩), ("c", ⟨"R", Status.redundant⟩),
      ("d", ⟨"R", Status.redundant⟩)]
    (by decide) (by unfold builderStatuses; decide) (by decide)
  exact h.1 "e" (by decide)

/-! ### Claim C6 -/

/-- C6: with content recovery disabled (`not_by_content = true`),
`recover_hits` returns the (canonically re-sorted) base table: as a
scaffold-keyed mapping it is unchanged — every hit keeps exactly the
status it had, and in particular no hit is newly marked
`readded_by_outlier_score`. -/
theorem C6_theorem (hits : String → HitData) (t : Table) (r : List String → Nat)
    (nbs : Bool) (z0 msd : ℚ) (hnd : (keysOf t).Nodup) :
    recover_hits hits t r true nbs z0 msd = some (sortTable t) ∧
    (∀ s, lookupStatus (sortTable t) s = lookupStatus t s) := by
  constructor
  · rfl
  · intro s
    unfold lookupStatus
    rw [lookupRow_sortTable hnd]

/-- C6 (witness): the disabled-recovery engine on the two-hit example. -/
theorem C6_witness :
    recover_hits hitsPair tablePair (fun _ => 0) true false 2 (1/10)
        = some (sortTable tablePair) ∧
    lookupStatus (sortTable tablePair) "a" = lookupStatus tablePair "a" := by
  have h := C6_theorem hitsPair tablePair (fun _ => 0) false 2 (1/10) (by decide)
  exact ⟨h.1, h.2 "a"⟩

/-! ### Claim C9 -/

/-- C9: the retained-set selector returns exactly the scaffold IDs whose
status is not `redundant`; on the (representative, status)-sorted table it
returns them in that sorted row order; it is a total function, and on a
table whose hits are all redundant it returns the empty list. -/
theorem C9_theorem (t : Table) :
    (∀ s : String, s ∈ get_dereplicated_scaffolds t ↔
      ∃ row : Row, (s, row) ∈ t ∧ row.dereplication_status ≠ Status.redundant) ∧
    get_dereplicated_scaffolds (sortTable t) =
      ((sortTable t).filter
        (fun p => !decide (p.2.dereplication_status = Status.redundant))).map Prod.fst ∧
    List.Pairwise rowLeP
      ((sortTable t).filter
        (fun p => !decide (p.2.dereplication_status = Status.redundant))) ∧
    ((∀ p ∈ t, p.2.dereplication_status = Status.redundant) →
      get_dereplicated_scaffolds t = []) := by
  refine ⟨?_, rfl, ?_, ?_⟩
  · intro s
    unfold get_dereplicated_scaffolds
    rw [List.mem_map]
    constructor
    · rintro ⟨p, hp, hfst⟩
      obtain ⟨hpt, hpred⟩ := List.mem_filter.mp hp
      refine ⟨p.2, ?_, ?_⟩
      · have he : (s, p.2) = p := by rw [← hfst]
        rw [he]
        exact hpt
      · intro hred
        rw [hred] at hpred
        simp at hpred
    · rintro ⟨row, hmem, hne⟩
      exact ⟨(s, row), List.mem_filter.mpr ⟨hmem, by simp [hne]⟩, rfl⟩
  · exact (sortTable_sorted t).filter _
  · intro hall
    unfold get_dereplicated_scaffolds
    have he : (t.filter (fun p => !decide (p.2.dereplication_status = Status.redundant)))
        = [] := by
      rw [List.filter_eq_nil_iff]
      intro p hp
      simp [hall p hp]
    rw [he]
    rfl

/-- C9 (witness): the selector on the all-redundant Scenario C base table
returns the empty list. -/
theorem C9_witness : get_dereplicated_scaffolds tableScenarioC = [] :=
  (C9_theorem tableScenarioC).2.2.2 (by decide)

/-! ### Claim C3 -/

theorem lookupStatus_ne_of_all {t : Table} {st : Status}
    (h : ∀ p ∈ t, ¬ p.2.dereplication_status = st) (s : String) :
    lookupStatus t s ≠ some st := by
  intro hc
  cases hlk : lookupRow t s with
  | none =>
    rw [lookupStatus_of_none hlk] at hc
    exact Option.noConfusion hc
  | some row =>
    rw [lookupStatus_of_lookupRow hlk] at hc
    exact h (s, row) (lookupRow_eq_some_mem hlk) (Option.some.inj hc)

/-- C3 (counterexample): on the Scenario C input (scores `[5, 5, 5, 9]`,
`outlier_z = 2`, `min_score_diff = 0.1`) the hit with score 9 stays
`redundant`: its z-score is `√3 < 2` under scipy's population standard
deviation (and `1.5 < 2` even under the sample one), so the claim that it
becomes `readded_by_outlier_score` is false. -/
theorem C3_counterexample :
    lookupStatus ((recover_hits hitsScenarioC tableScenarioC (fun _ => 0) false false
        2 (1/10)).getD []) "d" = some Status.redundant := by decide

/-- C3 (amended): on the Scenario C input, whatever index the random
choice draws, no hit is marked `readded_by_outlier_score` (there is no
z-score outlier at threshold 2) and exactly one of the four hits is marked
`readded_by_cluster_content`. -/
theorem C3_theorem (r : List String → Nat) (t2 : Table)
    (h : recover_hits hitsScenarioC tableScenarioC r false false 2 (1/10) = some t2) :
    (∀ s, lookupStatus t2 s ≠ some Status.readded_by_outlier_score) ∧
    (t2.filter (fun p =>
      decide (p.2.dereplication_status = Status.readded_by_cluster_content))).length
      = 1 := by
  unfold recover_hits recover_hits_core at h
  rw [if_neg (by simp : ¬ (false : Bool) = true)] at h
  rcases Option.map_eq_some'.mp h with ⟨tpre, hpre, ht2⟩
  have hall : allContentGroups hitsScenarioC tableScenarioC = [["a", "b", "c", "d"]] := by
    decide
  rw [hall, process_groups_cons] at hpre
  rcases Option.bind_eq_some.mp hpre with ⟨tm, hstep, hrest⟩
  have htm : tm = tpre := Option.some.inj (hrest : some tm = some tpre)
  subst htm
  unfold processContentGroup at hstep
  rw [if_neg (by decide : ¬ (false || decide
      (varPop (scoresOf hitsScenarioC ["a", "b", "c", "d"]) = 0)) = true)] at hstep
  rw [if_neg (by decide : ¬ hasRep tableScenarioC
      (nonOutliersOf hitsScenarioC 2 (1/10) ["a", "b", "c", "d"]) = true)] at hstep
  simp only [(by decide : nonOutliersOf hitsScenarioC 2 (1/10) ["a", "b", "c", "d"]
        = ["a", "b", "c", "d"]),
    (by decide : applyOutliers tableScenarioC hitsScenarioC 2 (1/10)
        ["a", "b", "c", "d"] tableScenarioC = tableScenarioC)] at hstep
  rcases Option.map_eq_some'.mp hstep with ⟨m, hchoosem, htpre⟩
  have hm4 : m = "a" ∨ m = "b" ∨ m = "c" ∨ m = "d" := by
    have hmem := choiceM_mem hchoosem
    simpa using hmem
  rcases hm4 with hm | hm | hm | hm <;> subst hm <;> rw [← ht2, ← htpre] <;>
    exact ⟨fun s => lookupStatus_ne_of_all (by decide) s, by decide⟩

/-- C3 (witness): the amended claim instantiated at the draw that picks the
first member. -/
theorem C3_witness :
    (∀ s, lookupStatus
        [("a", ⟨"R", Status.readded_by_cluster_content⟩),
          ("b", ⟨"R", Status.redundant⟩), ("c", ⟨"R", Status.redundant⟩),
          ("d", ⟨"R", Status.redundant⟩)] s ≠ some Status.readded_by_outlier_score) ∧
    (([("a", ⟨"R", Status.readded_by_cluster_content⟩),
        ("b", ⟨"R", Status.redundant⟩), ("c", ⟨"R", Status.redundant⟩),
        ("d", ⟨"R", Status.redundant⟩)] : Table).filter (fun p =>
      decide (p.2.dereplication_status = Status.readded_by_cluster_content))).length
      = 1 :=
  C3_theorem (fun _ => 0) _ (by decide)

/-! ### Claim C10 -/

/-- C10: with `min_score_diff > 0`, a member whose score equals the modal
score has `|score − mode| = 0 < min_score_diff` and never passes the
outlier mask; hence the non-outlier set of a nonempty content group is
nonempty and the content-group-representative selection is never handed an
empty collection (`processContentGroup` cannot fail).  The hypothesis
`0 < min_score_diff` is essential: with `min_score_diff = 0` the guarantee
is lost. -/
theorem C10_theorem (base : Table) (hits : String → HitData) (r : List String → Nat)
    (z0 msd : ℚ) (cg : List String) (t : Table)
    (hmsd : 0 < msd) (hne : cg ≠ []) :
    (∀ s ∈ cg, (hits s).score = modeScore (scoresOf hits cg) →
      isOutlier (scoresOf hits cg) (hits s).score (modeScore (scoresOf hits cg)) z0 msd
        = false) ∧
    nonOutliersOf hits z0 msd cg ≠ [] ∧
    processContentGroup base hits false z0 msd (choiceM r) t cg ≠ none := by
  have hscne : scoresOf hits cg ≠ [] := by
    intro h0
    apply hne
    unfold scoresOf at h0
    exact List.map_eq_nil_iff.mp h0
  have hmodal : ∀ s ∈ cg, (hits s).score = modeScore (scoresOf hits cg) →
      isOutlier (scoresOf hits cg) (hits s).score (modeScore (scoresOf hits cg)) z0 msd
        = false := by
    intro s hs hsc
    unfold isOutlier
    rw [hsc]
    have hlt : ¬ msd ≤ |modeScore (scoresOf hits cg) - modeScore (scoresOf hits cg)| := by
      rw [sub_self, abs_zero]
      exact not_le.mpr hmsd
    rw [decide_eq_false hlt, Bool.and_false]
  have hnonempty : nonOutliersOf hits z0 msd cg ≠ [] := by
    have hmode := modeScore_mem hscne
    obtain ⟨s0, hs0, hsc0⟩ := List.mem_map.mp hmode
    have hmem : s0 ∈ nonOutliersOf hits z0 msd cg :=
      mem_nonOutliersOf.mpr ⟨hs0, hmodal s0 hs0 hsc0⟩
    intro h0
    rw [h0] at hmem
    exact List.not_mem_nil _ hmem
  refine ⟨hmodal, hnonempty, ?_⟩
  unfold processContentGroup
  by_cases hbr : (false || decide (varPop (scoresOf hits cg) = 0)) = true
  · rw [if_pos hbr]
    by_cases hrep : hasRep base cg = true
    · rw [if_pos hrep]
      simp
    · rw [if_neg hrep]
      intro hc
      rw [Option.map_eq_none'] at hc
      exact hne (choiceM_eq_none_iff.mp hc)
  · rw [if_neg hbr]
    by_cases hrep : hasRep base (nonOutliersOf hits z0 msd cg) = true
    · rw [if_pos hrep]
      simp
    · rw [if_neg hrep]
      intro hc
      rw [Option.map_eq_none'] at hc
      exact hnonempty (choiceM_eq_none_iff.mp hc)

/-- C10 (witness): the guarantee instantiated on the Scenario C group. -/
theorem C10_witness :
    nonOutliersOf hitsScenarioC 2 (1/10) ["a", "b", "c", "d"] ≠ [] ∧
    processContentGroup tableScenarioC hitsScenarioC false 2 (1/10)
      (choiceM (fun _ => 0)) tableScenarioC ["a", "b", "c", "d"] ≠ none := by
  have h := C10_theorem tableScenarioC hitsScenarioC (fun _ => 0) 2 (1/10)
    ["a", "b", "c", "d"] tableScenarioC (by decide) (by decide)
  exact ⟨h.2.1, h.2.2⟩

/-! ### Claim C1 -/

/-- C1 (counterexample): in a five-hit content group with scores
`[5, 5, 5, 5, 9]` whose score outlier (z exactly 2, score 4 above the
mode) is the dereplication representative, the outlier passes the claimed
condition yet is not marked `readded_by_outlier_score` — it keeps status
`dereplication_representative` (the code skips representatives), so the
claimed "if and only if" fails as stated. -/
theorem C1_counterexample :
    isOutlier (scoresOf hitsRepOutlier ["a", "b", "c", "d", "e"]) 9
        (modeScore (scoresOf hitsRepOutlier ["a", "b", "c", "d", "e"])) 2 (1/10)
      = true ∧
    lookupStatus ((recover_hits hitsRepOutlier tableRepOutlier (fun _ => 0) false false
        2 (1/10)).getD []) "e" = some Status.dereplication_representative := by decide

/-- C1 (amended): on a builder-produced base table, within a content group
having at least two distinct scores and with score recovery enabled, a hit
ends with status `readded_by_outlier_score` iff it passes the outlier mask
(`|z| ≥ outlier_z`, in its exact square form, and
`|score − mode| ≥ min_score_diff`) AND its base status is not the
dereplication representative. -/
theorem C1_theorem (hits : String → HitData) (t : Table) (r : List String → Nat)
    (z0 msd : ℚ) (t2 : Table) (s : String) (row : Row)
    (hnd : (keysOf t).Nodup) (hbase : builderStatuses t)
    (hrow : lookupRow t s = some row)
    (hvar : ∃ a ∈ scoresOf hits (ownGroup hits t s),
      ∃ b ∈ scoresOf hits (ownGroup hits t s), a ≠ b)
    (h : recover_hits hits t r false false z0 msd = some t2) :
    lookupStatus t2 s = some Status.readded_by_outlier_score ↔
      (isOutlier (scoresOf hits (ownGroup hits t s)) (hits s).score
          (modeScore (scoresOf hits (ownGroup hits t s))) z0 msd = true ∧
        row.dereplication_status ≠ Status.dereplication_representative) := by
  have hm : ∀ l x, choiceM r l = some x → x ∈ l := fun l x => choiceM_mem
  have hper := recover_hits_core_lookup hm hnd h s
  rw [lookupStatus_applyDecision_some hper hrow]
  obtain ⟨a, ha, b, hb, hab⟩ := hvar
  have hvarne : varPop (scoresOf hits (ownGroup hits t s)) ≠ 0 :=
    varPop_ne_zero_of_two ha hb hab
  have hbr : ¬ (false || decide (varPop (scoresOf hits (ownGroup hits t s)) = 0))
      = true := by
    simp only [Bool.false_or, decide_eq_true_eq]
    exact hvarne
  unfold groupDecision
  rw [if_neg hbr]
  by_cases hout : isOutlier (scoresOf hits (ownGroup hits t s)) (hits s).score
      (modeScore (scoresOf hits (ownGroup hits t s))) z0 msd = true
  · rw [if_pos hout]
    by_cases hreps : lookupStatus t s = some Status.dereplication_representative
    · rw [if_pos hreps]
      have hrowrep : row.dereplication_status = Status.dereplication_representative := by
        rw [lookupStatus_of_lookupRow hrow] at hreps
        exact Option.some.inj hreps
      rw [Option.getD_none]
      constructor
      · intro hc
        rw [hrowrep] at hc
        exact Status.noConfusion (Option.some.inj hc)
      · rintro ⟨_, hne⟩
        exact absurd hrowrep hne
    · rw [if_neg hreps, Option.getD_some]
      constructor
      · intro _
        refine ⟨hout, ?_⟩
        intro hrepeq
        exact hreps (by rw [lookupStatus_of_lookupRow hrow, hrepeq])
      · intro _
        rfl
  · rw [if_neg hout]
    constructor
    · intro hc
      exfalso
      by_cases hrep2 : hasRep t (nonOutliersOf hits z0 msd (ownGroup hits t s)) = true
      · rw [if_pos hrep2, Option.getD_none] at hc
        rcases hbase (s, row) (lookupRow_eq_some_mem hrow) with hb2 | hb2 <;>
          · rw [hb2] at hc
            exact Status.noConfusion (Option.some.inj hc)
      · rw [if_neg hrep2] at hc
        by_cases hcs : choiceM r (nonOutliersOf hits z0 msd (ownGroup hits t s)) = some s
        · rw [if_pos hcs, Option.getD_some] at hc
          exact Status.noConfusion (Option.some.inj hc)
        · rw [if_neg hcs, Option.getD_none] at hc
          rcases hbase (s, row) (lookupRow_eq_some_mem hrow) with hb2 | hb2 <;>
            · rw [hb2] at hc
              exact Status.noConfusion (Option.some.inj hc)
    · rintro ⟨ho, _⟩
      exact absurd ho hout

/-- C1 (witness): in the two-hit group with scores `[5, 9]` at threshold 1,
the hit with score 9 passes the mask, is not the representative, and is
marked `readded_by_outlier_score`. -/
theorem C1_witness :
    lookupStatus
      [("a", ⟨"R", Status.readded_by_cluster_content⟩),
        ("b", ⟨"R", Status.readded_by_outlier_score⟩)] "b"
      = some Status.readded_by_outlier_score := by
  have h := C1_theorem hitsPair tablePair (fun _ => 0) 1 (1/10)
    [("a", ⟨"R", Status.readded_by_cluster_content⟩),
      ("b", ⟨"R", Status.readded_by_outlier_score⟩)] "b" ⟨"R", Status.redundant⟩
    (by decide) (by unfold builderStatuses; decide) (by decide) (by decide) (by decide)
  exact h.mpr ⟨by decide, by decide⟩

/-! ### Claim C4 -/

/-- C4 (counterexample): the code's z-score is standardised by the
population standard deviation (scipy `ddof = 0`), not the sample one the
claim states: on scores `[5, 9]` the squared z of 9 is 1 under the code
but 1/2 under the sample formula, and at threshold 1 the engine marks the
hit `readded_by_outlier_score` although the sample z-score would be below
threshold. -/
theorem C4_counterexample :
    zsqPop [5, 9] 9 = 1 ∧ zsqSample [5, 9] 9 = 1/2 ∧
    zsqPop [5, 9] 9 ≠ zsqSample [5, 9] 9 ∧
    lookupStatus ((recover_hits hitsPair tablePair (fun _ => 0) false false 1
        (1/10)).getD []) "b" = some Status.readded_by_outlier_score ∧
    ¬ (1 : ℚ) ^ 2 ≤ zsqSample (scoresOf hitsPair (ownGroup hitsPair tablePair "b")) 9
    := by decide

/-- C4 (amended): the engine's threshold test realises
`|z| ≥ outlier_z` for the POPULATION-standardised z-score (`ddof = 0`):
for positive population variance and a nonnegative threshold it holds iff
`z0² ≤ (x − mean)²/varPop`; a singleton group has population variance 0,
its z-score is NaN, and the group falls through to the content-only path
(one processContentGroup call on a singleton either leaves the table
unchanged or flags `readded_by_cluster_content`, never an outlier). -/
theorem C4_theorem :
    (∀ (l : List ℚ) (x z0 : ℚ), 0 < varPop l → 0 ≤ z0 →
      (zAbsGe l x z0 = true ↔ z0 ^ 2 ≤ zsqPop l x)) ∧
    (∀ x : ℚ, varPop [x] = 0) ∧
    (∀ (base : Table) (hits : String → HitData) (z0 msd : ℚ)
        (choose : List String → Option String) (t t2 : Table) (s : String),
      processContentGroup base hits false z0 msd choose t [s] = some t2 →
      ∀ x, lookupRow t2 x = lookupRow t x ∨
        lookupRow t2 x = applyDecision (lookupRow t x)
          (some Status.readded_by_cluster_content)) := by
  refine ⟨?_, varPop_singleton, ?_⟩
  · intro l x z0 hv hz
    unfold zAbsGe zsqPop
    rcases eq_or_lt_of_le hz with hz0 | hz0
    · rw [← hz0]
      constructor
      · intro _
        have h0 : ((0 : ℚ)) ^ 2 = 0 := by norm_num
        rw [h0]
        exact div_nonneg (sq_nonneg _) (le_of_lt hv)
      · intro _
        simp
    · have hd : decide (z0 ≤ 0) = false := decide_eq_false (not_le.mpr hz0)
      rw [hd, Bool.false_or, decide_eq_true_eq]
      exact (le_div_iff₀ hv).symm
  · intro base hits z0 msd choose t t2 s h
    unfold processContentGroup at h
    have hc : (false || decide (varPop (scoresOf hits [s]) = 0)) = true := by
      have he : scoresOf hits [s] = [(hits s).score] := rfl
      rw [he, varPop_singleton]
      simp
    rw [if_pos hc] at h
    by_cases hrep : hasRep base [s] = true
    · rw [if_pos hrep] at h
      have ht : t = t2 := Option.some.inj h
      intro x
      left
      rw [← ht]
    · rw [if_neg hrep] at h
      rcases Option.map_eq_some'.mp h with ⟨m, _, ht2⟩
      intro x
      rw [← ht2, lookupRow_setStatus]
      by_cases hmx : m = x
      · right
        rw [if_pos hmx]
      · left
        rw [if_neg hmx]

/-- C4 (witness): the population-form equivalence instantiated on the
two-score group. -/
theorem C4_witness :
    zAbsGe [5, 9] 9 1 = true ↔ (1 : ℚ) ^ 2 ≤ zsqPop [5, 9] 9 :=
  C4_theorem.1 [5, 9] 9 1 (by decide) (by decide)

/-! ### Claim C8 -/

theorem mapM_error_of_mem {α β : Type} (step : α → Except ParseError β) :
    ∀ {records : List α} {record : α} {e : ParseError},
      record ∈ records → step record = Except.error e →
      ∃ e2, records.mapM step = Except.error e2 := by
  intro records
  induction records with
  | nil =>
    intro record e h _
    cases h
  | cons a l ih =>
    intro record e hmem hstep
    rw [List.mapM_cons]
    rcases List.mem_cons.mp hmem with he | he
    · subst he
      rw [hstep]
      exact ⟨e, rfl⟩
    · cases hs : step a with
      | error e2 => exact ⟨e2, rfl⟩
      | ok b =>
        obtain ⟨e2, hrec⟩ := ih he hstep
        exact ⟨e2, by rw [hrec]; rfl⟩

/-- C8: if some clustering record's assembly path contains no match of the
accession pattern, the table builder fails with a `ParseError` and the
recovery pipeline aborts with that same error — recovery never receives a
partially built table. -/
theorem C8_theorem (records : List ClusterRecord) (pairs : List (String × String))
    (hits : String → HitData) (r : List String → Nat) (nbc nbs : Bool) (z0 msd : ℚ)
    (record : ClusterRecord) (hmem : record ∈ records)
    (hbad : findAcc record.assembly_path.data = none) :
    ∃ e, parse_dereplication_clusters records pairs = Except.error e ∧
      recovery_pipeline records pairs hits r nbc nbs z0 msd = Except.error e := by
  have hext : extract_assembly record.assembly_path
      = Except.error (ParseError.accession record.assembly_path) := by
    unfold extract_assembly
    rw [hbad]
  have hstep : (do
      let assembly ← extract_assembly record.assembly_path
      let representative ← extract_assembly record.representative_path
      let st ← remap_type_label record.raw_status
      pure (assembly, Row.mk representative st) : Except ParseError (String × Row))
      = Except.error (ParseError.accession record.assembly_path) := by
    rw [hext]
    rfl
  obtain ⟨e, hmapm⟩ := mapM_error_of_mem
    (fun record => do
      let assembly ← extract_assembly record.assembly_path
      let representative ← extract_assembly record.representative_path
      let st ← remap_type_label record.raw_status
      pure (assembly, Row.mk representative st)) hmem hstep
  have hparse : parse_dereplication_clusters records pairs = Except.error e := by
    unfold parse_dereplication_clusters
    rw [hmapm]
    rfl
  refine ⟨e, hparse, ?_⟩
  unfold recovery_pipeline
  rw [hparse]

/-- C8 (witness): one record whose assembly path has no accession match
aborts the pipeline with that accession `ParseError`. -/
theorem C8_witness :
    recovery_pipeline [⟨"nope", "y", "representative_to_self"⟩] [] (fun _ => ⟨[], 0⟩)
      (fun _ => 0) false false 2 (1/10)
      = Except.error (ParseError.accession "nope") := by
  obtain ⟨e, h1, h2⟩ := C8_theorem [⟨"nope", "y", "representative_to_self"⟩] []
    (fun _ => ⟨[], 0⟩) (fun _ => 0) false false 2 (1/10)
    ⟨"nope", "y", "representative_to_self"⟩ (List.mem_singleton.mpr rfl) (by decide)
  have hp : parse_dereplication_clusters [⟨"nope", "y", "representative_to_self"⟩] []
      = Except.error (ParseError.accession "nope") := by rfl
  rw [h1] at hp
  injection hp with hp2
  rw [h2, hp2]

/-! ### Claim C7 -/

/-- C7: the result of the recovery engine does not depend on the order in
which the content groups are processed: folding the group updates in any
permutation of the canonical group list succeeds exactly when the engine
does, and the resulting tables agree on every scaffold's row (the same set
of (hit, status) pairs). -/
theorem C7_theorem (hits : String → HitData) (t : Table) (r : List String → Nat)
    (nbs : Bool) (z0 msd : ℚ) (L : List (List String))
    (hnd : (keysOf t).Nodup)
    (hperm : L.Perm (allContentGroups hits t)) :
    ((process_groups t hits nbs z0 msd (choiceM r) t L).isSome
      = (recover_hits hits t r false nbs z0 msd).isSome) ∧
    (∀ tA t2, process_groups t hits nbs z0 msd (choiceM r) t L = some tA →
      recover_hits hits t r false nbs z0 msd = some t2 →
      ∀ s, lookupRow tA s = lookupRow t2 s) := by
  have hm : ∀ l x, choiceM r l = some x → x ∈ l := fun l x => choiceM_mem
  constructor
  · have h1 : (recover_hits hits t r false nbs z0 msd).isSome
        = (process_groups t hits nbs z0 msd (choiceM r) t
            (allContentGroups hits t)).isSome := by
      unfold recover_hits recover_hits_core
      rw [if_neg (by simp : ¬ (false : Bool) = true)]
      cases process_groups t hits nbs z0 msd (choiceM r) t (allContentGroups hits t) <;>
        rfl
    rw [h1]
    have hiff : ((process_groups t hits nbs z0 msd (choiceM r) t L).isSome = true) ↔
        ((process_groups t hits nbs z0 msd (choiceM r) t
          (allContentGroups hits t)).isSome = true) := by
      rw [process_groups_isSome_iff, process_groups_isSome_iff]
      constructor
      · intro h cg hcg
        exact h cg (hperm.mem_iff.mpr hcg)
      · intro h cg hcg
        exact h cg (hperm.mem_iff.mp hcg)
    cases hA : (process_groups t hits nbs z0 msd (choiceM r) t L).isSome <;>
      cases hB : (process_groups t hits nbs z0 msd (choiceM r) t
        (allContentGroups hits t)).isSome
    · rfl
    · rw [hA, hB] at hiff
      exact absurd (hiff.mpr rfl) (by simp)
    · rw [hA, hB] at hiff
      exact absurd (hiff.mp rfl) (by simp)
    · rfl
  · intro tA t2 hA h2 s
    cases hlk : lookupRow t s with
    | none =>
      have hnk : s ∉ keysOf t := lookupRow_eq_none_iff.mp hlk
      have hnotL : ∀ cg ∈ L, s ∉ cg := fun cg hcg hs =>
        hnk (mem_keys_of_mem_group (hperm.mem_iff.mp hcg) hs)
      rw [process_groups_lookup_of_not_mem hm hnotL hA,
        recover_hits_core_lookup hm hnd h2 s, hlk, applyDecision_none_left]
    | some row =>
      have hG := process_groups_lookup hm (ownGroup_self_mem hlk)
        (fun cg hcg hs => eq_ownGroup_of_mem hnd (hperm.mem_iff.mp hcg) hs) hA
      rw [hG, if_pos (hperm.mem_iff.mpr (ownGroup_mem_all hlk)),
        recover_hits_core_lookup hm hnd h2 s]

/-- C7 (witness): on a two-content-group cluster, processing the groups in
reversed order succeeds exactly when the engine does. -/
theorem C7_witness :
    (process_groups tablePair (fun s => if s = "b" then ⟨[2], 7⟩ else ⟨[1], 5⟩) false
        2 (1/10) (choiceM (fun _ => 0)) tablePair [["b"], ["a"]]).isSome
      = (recover_hits (fun s => if s = "b" then ⟨[2], 7⟩ else ⟨[1], 5⟩) tablePair
          (fun _ => 0) false false 2 (1/10)).isSome := by
  have h := C7_theorem (fun s => if s = "b" then ⟨[2], 7⟩ else ⟨[1], 5⟩) tablePair
    (fun _ => 0) false 2 (1/10) [["b"], ["a"]] (by decide) (by decide)
  exact h.1

/-! ### Claim C5: structural views are stable under recovery -/

theorem bool_eq_of_iff {a b : Bool} (h : a = true ↔ b = true) : a = b := by
  cases a <;> cases b <;> simp_all

theorem membersOfRep_nodup {t : Table} (hnd : (keysOf t).Nodup) (rep : String) :
    (membersOfRep t rep).Nodup := by
  unfold keysOf at hnd
  unfold membersOfRep
  exact List.Nodup.sublist ((List.filter_sublist t).map Prod.fst) hnd

theorem isOutlier_congr {l l2 : List ℚ} (hp : l.Perm l2) (x z0 msd : ℚ) :
    isOutlier l x (modeScore l) z0 msd = isOutlier l2 x (modeScore l2) z0 msd := by
  unfold isOutlier zAbsGe
  rw [mean_perm hp, varPop_perm hp, modeScore_perm hp]

theorem nonOutliersOf_congr {hits : String → HitData} {z0 msd : ℚ} {cg cg2 : List String}
    (hp : cg.Perm cg2) :
    (nonOutliersOf hits z0 msd cg).Perm (nonOutliersOf hits z0 msd cg2) := by
  have hs : (scoresOf hits cg).Perm (scoresOf hits cg2) := hp.map _
  have he : nonOutliersOf hits z0 msd cg = cg.filter
      (fun s => !isOutlier (scoresOf hits cg2) (hits s).score
        (modeScore (scoresOf hits cg2)) z0 msd) := by
    unfold nonOutliersOf
    apply List.filter_congr
    intro s _
    rw [isOutlier_congr hs]
  rw [he]
  unfold nonOutliersOf
  exact hp.filter _

theorem allContentGroups_ne_nil {hits : String → HitData} {t : Table} {cg : List String}
    (h : cg ∈ allContentGroups hits t) : cg ≠ [] := by
  unfold allContentGroups at h
  rw [List.mem_flatMap] at h
  obtain ⟨rep, _, h⟩ := h
  unfold contentGroupsOf at h
  rw [List.mem_map] at h
  obtain ⟨c, hc, hcg⟩ := h
  obtain ⟨s, hs, hsc⟩ := mem_contentsOf.mp hc
  intro hnil
  have hmem : s ∈ cg := by
    rw [← hcg]
    exact mem_contentGroup.mpr ⟨hs, hsc⟩
  rw [hnil] at hmem
  exact List.not_mem_nil s hmem

/-- C5 (counterexample): the engine as coded is not idempotent.  On the
Scenario C input, with the index oracle constantly drawing index 1,
`random.choice` picks `"b"` on the first run but — the final sort having
moved the readded row to the front of its cluster — `"a"` on the second,
so running `recover_hits` again on its own output changes the table. -/
theorem C5_counterexample :
    ((recover_hits hitsScenarioC tableScenarioC (fun _ => 1) false false 2 (1/10)).bind
        (fun t1 => recover_hits hitsScenarioC t1 (fun _ => 1) false false 2 (1/10))) ≠
      recover_hits hitsScenarioC tableScenarioC (fun _ => 1) false false 2 (1/10) := by
  decide

/-- C5 (amended): with the deterministic smallest-ID member selection of
spec §9 in place of the source's `random.choice`, `recover_hits` is
idempotent: a second run on the output of a successful run (on a table
with unique scaffold keys) succeeds as well and leaves every hit's row
unchanged. -/
theorem C5_theorem (hits : String → HitData) (t : Table) (nbs : Bool) (z0 msd : ℚ)
    (t1 : Table) (hnd : (keysOf t).Nodup)
    (h : recover_hits_det hits t false nbs z0 msd = some t1) :
    ∃ t2, recover_hits_det hits t1 false nbs z0 msd = some t2 ∧
      ∀ s, lookupRow t2 s = lookupRow t1 s := by
  have hm : ∀ (l : List String) (x : String), detChoice l = some x → x ∈ l :=
    fun l x hx => detChoice_mem hx
  unfold recover_hits_det at h
  have hper1 : ∀ s, lookupRow t1 s =
      applyDecision (lookupRow t s)
        (groupDecision t hits nbs z0 msd detChoice (ownGroup hits t s) s) :=
    recover_hits_core_lookup hm hnd h
  have hcopy := h
  unfold recover_hits_core at hcopy
  rw [if_neg (by simp : ¬ (false : Bool) = true)] at hcopy
  rcases Option.map_eq_some'.mp hcopy with ⟨tpre, hpre, ht1⟩
  have hkeys1 : (keysOf t1).Perm (keysOf t) := by
    have h1 : (keysOf (sortTable tpre)).Perm (keysOf tpre) :=
      (sortTable_perm tpre).map Prod.fst
    rw [keysOf_process_groups hpre] at h1
    rw [← ht1]
    exact h1
  have hnd1 : (keysOf t1).Nodup := hkeys1.nodup_iff.mpr hnd
  have happ_some : ∀ (x : Option Row) (d : Option Status),
      (applyDecision x d).isSome = x.isSome := by
    intro x d
    cases x <;> cases d <;> rfl
  have hlk_iff : ∀ s, (lookupRow t1 s).isSome = (lookupRow t s).isSome := by
    intro s
    rw [hper1 s, happ_some]
  have hrow1 : ∀ s row1, lookupRow t1 s = some row1 →
      ∃ row, lookupRow t s = some row ∧ row1.representative = row.representative := by
    intro s row1 h1
    rw [hper1 s] at h1
    cases hlk : lookupRow t s with
    | none =>
      rw [hlk, applyDecision_none_left] at h1
      exact Option.noConfusion h1
    | some row =>
      rw [hlk] at h1
      refine ⟨row, rfl, ?_⟩
      cases hd : groupDecision t hits nbs z0 msd detChoice (ownGroup hits t s) s with
      | none =>
        rw [hd, applyDecision_none] at h1
        injection h1 with h1
        rw [← h1]
      | some st =>
        rw [hd] at h1
        have h2 : some { row with dereplication_status := st } = some row1 := h1
        injection h2 with h2
        rw [← h2]
  have hrow1r : ∀ s row, lookupRow t s = some row →
      ∃ row1, lookupRow t1 s = some row1 ∧ row1.representative = row.representative := by
    intro s row hlk
    have hs : (lookupRow t1 s).isSome = true := by
      rw [hlk_iff s, hlk]
      rfl
    rcases Option.isSome_iff_exists.mp hs with ⟨row1, h1⟩
    obtain ⟨row2, hlk2, he⟩ := hrow1 s row1 h1
    rw [hlk] at hlk2
    injection hlk2 with hlk2
    refine ⟨row1, h1, ?_⟩
    rw [he, ← hlk2]
  have hrepiff : ∀ m, lookupStatus t1 m = some Status.dereplication_representative ↔
      lookupStatus t m = some Status.dereplication_representative := by
    intro m
    cases hlk : lookupRow t m with
    | none =>
      have h1 : lookupRow t1 m = none := by
        rw [hper1 m, hlk, applyDecision_none_left]
      rw [lookupStatus_of_none h1, lookupStatus_of_none hlk]
    | some row =>
      have hst1 : lookupStatus t1 m =
          some ((groupDecision t hits nbs z0 msd detChoice (ownGroup hits t m) m).getD
            row.dereplication_status) :=
        lookupStatus_applyDecision_some (hper1 m) hlk
      rw [hst1, lookupStatus_of_lookupRow hlk]
      cases hd : groupDecision t hits nbs z0 msd detChoice (ownGroup hits t m) m with
      | none => exact Iff.rfl
      | some st =>
        have hne := groupDecision_st_ne_rep hm hd
        rw [lookupStatus_of_lookupRow hlk] at hne
        constructor
        · intro hc
          exfalso
          have hst : st = Status.dereplication_representative := by
            injection hc
          rcases groupDecision_values t hits nbs z0 msd detChoice (ownGroup hits t m) m
            with hv | hv | hv
          · rw [hv] at hd
            exact Option.noConfusion hd
          · rw [hv] at hd
            injection hd with hd
            rw [← hd] at hst
            exact Status.noConfusion hst
          · rw [hv] at hd
            injection hd with hd
            rw [← hd] at hst
            exact Status.noConfusion hst
        · intro hc
          exact absurd hc hne
  have hmem1 : ∀ rep0, (membersOfRep t1 rep0).Perm (membersOfRep t rep0) := by
    intro rep0
    apply (List.perm_ext_iff_of_nodup (membersOfRep_nodup hnd1 rep0)
      (membersOfRep_nodup hnd rep0)).mpr
    intro s
    rw [mem_membersOfRep, mem_membersOfRep]
    constructor
    · rintro ⟨row1, hmem, hrep⟩
      have h1 : lookupRow t1 s = some row1 := lookupRow_eq_some_of_mem hnd1 hmem
      obtain ⟨row, hlk, he⟩ := hrow1 s row1 h1
      refine ⟨row, lookupRow_eq_some_mem hlk, ?_⟩
      rw [← he]
      exact hrep
    · rintro ⟨row, hmem, hrep⟩
      have hlk : lookupRow t s = some row := lookupRow_eq_some_of_mem hnd hmem
      obtain ⟨row1, h1, he⟩ := hrow1r s row hlk
      refine ⟨row1, lookupRow_eq_some_mem h1, ?_⟩
      rw [he]
      exact hrep
  have hog : ∀ s row, lookupRow t s = some row →
      (ownGroup hits t1 s).Perm (ownGroup hits t s) := by
    intro s row hlk
    obtain ⟨row1, h1, he⟩ := hrow1r s row hlk
    rw [ownGroup_eq h1, ownGroup_eq hlk, he]
    unfold contentGroup
    exact (hmem1 row.representative).filter _
  have hhr : ∀ {l l2 : List String}, l.Perm l2 → hasRep t1 l = hasRep t l2 := by
    intro l l2 hp
    apply bool_eq_of_iff
    rw [hasRep_iff, hasRep_iff]
    constructor
    · rintro ⟨m, hmem, hst⟩
      exact ⟨m, hp.mem_iff.mp hmem, (hrepiff m).mp hst⟩
    · rintro ⟨m, hmem, hst⟩
      exact ⟨m, hp.mem_iff.mpr hmem, (hrepiff m).mpr hst⟩
  have hgd : ∀ s row, lookupRow t s = some row →
      groupDecision t1 hits nbs z0 msd detChoice (ownGroup hits t1 s) s =
        groupDecision t hits nbs z0 msd detChoice (ownGroup hits t s) s := by
    intro s row hlk
    have hp : (ownGroup hits t1 s).Perm (ownGroup hits t s) := hog s row hlk
    have hs : (scoresOf hits (ownGroup hits t1 s)).Perm
        (scoresOf hits (ownGroup hits t s)) := hp.map _
    have hnonp : (nonOutliersOf hits z0 msd (ownGroup hits t1 s)).Perm
        (nonOutliersOf hits z0 msd (ownGroup hits t s)) := nonOutliersOf_congr hp
    have hrepeq : (lookupStatus t1 s = some Status.dereplication_representative) =
        (lookupStatus t s = some Status.dereplication_representative) :=
      propext (hrepiff s)
    unfold groupDecision
    simp only [varPop_perm hs, hhr hp, detChoice_perm hp, isOutlier_congr hs,
      hhr hnonp, detChoice_perm hnonp, hrepeq]
  have hpre_some : (process_groups t hits nbs z0 msd detChoice t
      (allContentGroups hits t)).isSome = true := by
    rw [hpre]
    rfl
  have hstep2 : ∀ cg1 ∈ allContentGroups hits t1,
      (processContentGroup t1 hits nbs z0 msd detChoice t1 cg1).isSome = true := by
    intro cg1 hcg1
    have hne : cg1 ≠ [] := allContentGroups_ne_nil hcg1
    obtain ⟨s0, hs0⟩ := List.exists_mem_of_ne_nil cg1 hne
    have hcgeq : cg1 = ownGroup hits t1 s0 := eq_ownGroup_of_mem hnd1 hcg1 hs0
    have hs0k : s0 ∈ keysOf t := hkeys1.mem_iff.mp (mem_keys_of_mem_group hcg1 hs0)
    have hlkne : lookupRow t s0 ≠ none := fun hc => (lookupRow_eq_none_iff.mp hc) hs0k
    rcases Option.ne_none_iff_exists'.mp hlkne with ⟨row, hlk⟩
    have hpG : cg1.Perm (ownGroup hits t s0) := by
      rw [hcgeq]
      exact hog s0 row hlk
    have hstep1 : (processContentGroup t hits nbs z0 msd detChoice t
        (ownGroup hits t s0)).isSome = true :=
      process_groups_isSome_iff.mp hpre_some _ (ownGroup_mem_all hlk)
    have hsP : (scoresOf hits cg1).Perm (scoresOf hits (ownGroup hits t s0)) := hpG.map _
    have hnonP : (nonOutliersOf hits z0 msd cg1).Perm
        (nonOutliersOf hits z0 msd (ownGroup hits t s0)) := nonOutliersOf_congr hpG
    have hv : varPop (scoresOf hits cg1) = varPop (scoresOf hits (ownGroup hits t s0)) :=
      varPop_perm hsP
    have hr1 : hasRep t1 cg1 = hasRep t (ownGroup hits t s0) := hhr hpG
    have hr2 : hasRep t1 (nonOutliersOf hits z0 msd cg1)
        = hasRep t (nonOutliersOf hits z0 msd (ownGroup hits t s0)) := hhr hnonP
    unfold processContentGroup at hstep1 ⊢
    by_cases hbr : (nbs || decide (varPop (scoresOf hits (ownGroup hits t s0)) = 0)) = true
    · rw [if_pos (by rw [hv]; exact hbr)]
      by_cases hrep : hasRep t (ownGroup hits t s0) = true
      · rw [if_pos (by rw [hr1]; exact hrep)]
        rfl
      · rw [if_neg (by rw [hr1]; exact hrep)]
        cases hdc : detChoice cg1 with
        | none => exact absurd (detChoice_eq_none_iff.mp hdc) hne
        | some m => rfl
    · rw [if_neg (by rw [hv]; exact hbr)]
      by_cases hrep : hasRep t (nonOutliersOf hits z0 msd (ownGroup hits t s0)) = true
      · rw [if_pos (by rw [hr2]; exact hrep)]
        rfl
      · rw [if_neg (by rw [hr2]; exact hrep)]
        rw [if_neg hbr, if_neg hrep] at hstep1
        cases hd1 : detChoice (nonOutliersOf hits z0 msd (ownGroup hits t s0)) with
        | none =>
          rw [hd1] at hstep1
          exact Bool.noConfusion hstep1
        | some m =>
          have hGne : nonOutliersOf hits z0 msd (ownGroup hits t s0) ≠ [] := by
            intro hc
            rw [hc] at hd1
            exact Option.noConfusion hd1
          have hcne : nonOutliersOf hits z0 msd cg1 ≠ [] := by
            intro hc
            rw [hc] at hnonP
            exact hGne hnonP.symm.eq_nil
          cases hdc : detChoice (nonOutliersOf hits z0 msd cg1) with
          | none => exact absurd (detChoice_eq_none_iff.mp hdc) hcne
          | some m2 => rfl
  have hps2 : (process_groups t1 hits nbs z0 msd detChoice t1
      (allContentGroups hits t1)).isSome = true := process_groups_isSome_iff.mpr hstep2
  rcases Option.isSome_iff_exists.mp hps2 with ⟨t2pre, hpre2⟩
  have hrec2 : recover_hits_core detChoice hits t1 false nbs z0 msd
      = some (sortTable t2pre) := by
    unfold recover_hits_core
    rw [if_neg (by simp : ¬ (false : Bool) = true), hpre2]
    rfl
  have hper2 : ∀ s, lookupRow (sortTable t2pre) s =
      applyDecision (lookupRow t1 s)
        (groupDecision t1 hits nbs z0 msd detChoice (ownGroup hits t1 s) s) :=
    recover_hits_core_lookup hm hnd1 hrec2
  refine ⟨sortTable t2pre, by unfold recover_hits_det; exact hrec2, ?_⟩
  intro s
  rw [hper2 s]
  cases hlk : lookupRow t s with
  | none =>
    have h1 : lookupRow t1 s = none := by
      rw [hper1 s, hlk, applyDecision_none_left]
    rw [h1, applyDecision_none_left]
  | some row =>
    rw [hgd s row hlk, hper1 s, applyDecision_idem]

/-- C5 (witness): the deterministic engine on the Scenario C input yields
`tableScenarioC1`, and a second run reproduces it row for row. -/
theorem C5_witness :
    ((keysOf tableScenarioC).Nodup ∧
        recover_hits_det hitsScenarioC tableScenarioC false false 2 (1/10)
          = some tableScenarioC1) ∧
      ∃ t2, recover_hits_det hitsScenarioC tableScenarioC1 false false 2 (1/10) = some t2 ∧
        ∀ s, lookupRow t2 s = lookupRow tableScenarioC1 s :=
  ⟨⟨by decide, by decide⟩,
    C5_theorem hitsScenarioC tableScenarioC false 2 (1/10) tableScenarioC1
      (by decide) (by decide)⟩

end Cagecleaner
